import Mathlib

/-!
# Quadric landmarks (`include/quadric_slam/g2o_Object.h`)

A shallow embedding of the `g2o::Quadric` primitive, the `VertexQuadric` node and the
`EdgeSE3QuadricProj` residual, followed by theorems about them.

Numbers: the source computes in `double`; the embedding computes in an arbitrary linearly
ordered field `K` (exact arithmetic), so every definition can be evaluated over `ℚ`, and the
theorems that need square roots or trigonometry are stated over `ℝ`.  The functions of
`<math.h>` are passed in as a record (`Libm`), Eigen's eigen-solver as another (`EigenLib`).
Division is the field division: a quotient with a zero divisor has no meaning in the source
(IEEE gives an infinity or a NaN there), and no theorem below reads anything into the value of
such a quotient; the `_checked` variants of the projection and of the residual return `none`
there.
-/

namespace g2o

/-! ## Vectors and matrices (Eigen typedefs) -/

abbrev Vector2d (K : Type) := Fin 2 → K
abbrev Vector3d (K : Type) := Fin 3 → K
abbrev Vector4d (K : Type) := Fin 4 → K
abbrev Vector6d (K : Type) := Fin 6 → K
abbrev Vector9d (K : Type) := Fin 9 → K
abbrev Vector10d (K : Type) := Fin 10 → K
abbrev Matrix3d (K : Type) := Matrix (Fin 3) (Fin 3) K
abbrev Matrix4d (K : Type) := Matrix (Fin 4) (Fin 4) K

/-- The functions of `<math.h>` that the source calls (`sqrt`, `cbrt`, and through the Euler
angle helpers `sin`, `cos`, `asin`, `atan2`); `pow(x, 2)` is written `x ^ 2`. -/
structure Libm (K : Type) where
  sqrt : K → K
  cbrt : K → K
  sin : K → K
  cos : K → K
  asin : K → K
  atan2 : K → K → K

/-- The real-number functions behind `<math.h>`: `atan2 y x` is the argument of `x + y i`,
`cbrt` the odd real cube root. -/
noncomputable def realLibm : Libm ℝ where
  sqrt := Real.sqrt
  cbrt := fun x => SignType.sign x * |x| ^ ((1 : ℝ) / 3)
  sin := Real.sin
  cos := Real.cos
  asin := Real.arcsin
  atan2 := fun y x => Complex.arg ⟨x, y⟩

/-- What the source takes from Eigen's `SelfAdjointEigenSolver<Matrix3d>` (eigenvalues in
increasing order, eigenvectors as columns) and from `MatrixBase::eulerAngles(2, 1, 0)`.
Library code outside the repository, taken as a parameter. -/
structure EigenLib (K : Type) where
  eigenvalues : Matrix3d K → Vector3d K
  eigenvectors : Matrix3d K → Matrix3d K
  eulerAngles210 : Matrix3d K → Vector3d K

section Defs

variable {K : Type} [LinearOrderedField K]

/-- Eigen's `inverse()` of a fixed-size matrix: the cofactor matrix times `1 / determinant`. -/
def inverse {n : Nat} (A : Matrix (Fin n) (Fin n) K) : Matrix (Fin n) (Fin n) K :=
  (A.det)⁻¹ • A.adjugate

/-- Eigen's single-index access `Q(i)` on a 4×4 matrix: the storage is column-major, so index
`i` is row `i % 4` of column `i / 4`. -/
def coeff (Q : Matrix4d K) (index : Fin 16) : K :=
  Q ⟨index.val % 4, Nat.mod_lt _ (by decide)⟩
    ⟨index.val / 4, Nat.div_lt_of_lt_mul (by have := index.isLt; omega)⟩

/-! ## The rigid transform `SE3Quat` -/

/-- Modelled from the spec: the rigid-transform type `SE3Quat` of Thirdparty/g2o, which is not
under src/.  The spec describes it as a 3D rotation plus a translation "supporting
composition, inversion, and exponential-map update" with a "homogeneous transform matrix";
the rotation is kept here as its 3×3 matrix. -/
@[ext]
structure SE3Quat (K : Type) where
  R : Matrix3d K
  t : Vector3d K

/-- A valid rigid transform: the rotation is orthonormal with determinant +1 (spec §3). -/
def SE3Quat.IsRigid (T : SE3Quat K) : Prop :=
  T.R.transpose * T.R = 1 ∧ T.R.det = 1

/-- Modelled from the spec: `SE3Quat()`, the identity transform. -/
def SE3Quat.identity : SE3Quat K := ⟨1, 0⟩

/-- Modelled from the spec: `SE3Quat::operator*`, composition of rigid transforms. -/
def SE3Quat.mul (A B : SE3Quat K) : SE3Quat K :=
  ⟨A.R * B.R, A.t + A.R.mulVec B.t⟩

instance : Mul (SE3Quat K) := ⟨SE3Quat.mul⟩

/-- Modelled from the spec: `SE3Quat::inverse`, the inverse rotation (the transpose, which is
what conjugating the quaternion gives) applied to the negated translation. -/
def SE3Quat.inverse (T : SE3Quat K) : SE3Quat K :=
  ⟨T.R.transpose, T.R.transpose.mulVec (-T.t)⟩

/-- Modelled from the spec: `SE3Quat::to_homogeneous_matrix`, the 4×4 matrix `[R t; 0 1]`. -/
def SE3Quat.to_homogeneous_matrix (T : SE3Quat K) : Matrix4d K :=
  !![T.R 0 0, T.R 0 1, T.R 0 2, T.t 0;
     T.R 1 0, T.R 1 1, T.R 1 2, T.t 1;
     T.R 2 0, T.R 2 1, T.R 2 2, T.t 2;
     0, 0, 0, 1]

/-- The cross-product matrix of a 3-vector. -/
def skew (v : Vector3d K) : Matrix3d K :=
  !![0, -v 2, v 1;
     v 2, 0, -v 0;
     -v 1, v 0, 0]

/-- Modelled from the spec: `SE3Quat::exp`, "the exponential map of the 6-vector (standard
rigid-body manifold update)", rotation part first: Rodrigues' formula for the rotation and the
matching `V` matrix for the translation, with the limit value at angle zero. -/
def SE3Quat.exp (L : Libm K) (update : Vector6d K) : SE3Quat K :=
  let omega : Vector3d K := ![update 0, update 1, update 2]
  let upsilon : Vector3d K := ![update 3, update 4, update 5]
  let theta := L.sqrt (Matrix.dotProduct omega omega)
  let Omega := skew omega
  if theta = 0 then
    ⟨1, upsilon⟩
  else
    let Omega2 := Omega * Omega
    let R : Matrix3d K :=
      1 + (L.sin theta / theta) • Omega + ((1 - L.cos theta) / (theta * theta)) • Omega2
    let V : Matrix3d K :=
      1 + ((1 - L.cos theta) / (theta * theta)) • Omega
        + ((theta - L.sin theta) / (theta ^ 3)) • Omega2
    ⟨R, V.mulVec upsilon⟩

/-- Modelled from the spec: `zyx_euler_to_quat(roll, pitch, yaw)` of matrix_utils.h (not under
src/), the "intrinsic Euler-to-quaternion/matrix conversion" in zyx order: the rotation
`Rz(yaw) · Ry(pitch) · Rx(roll)`. -/
def zyx_euler_to_quat (L : Libm K) (roll pitch yaw : K) : Matrix3d K :=
  let Rz : Matrix3d K := !![L.cos yaw, -L.sin yaw, 0; L.sin yaw, L.cos yaw, 0; 0, 0, 1]
  let Ry : Matrix3d K := !![L.cos pitch, 0, L.sin pitch; 0, 1, 0; -L.sin pitch, 0, L.cos pitch]
  let Rx : Matrix3d K := !![1, 0, 0; 0, L.cos roll, -L.sin roll; 0, L.sin roll, L.cos roll]
  Rz * Ry * Rx

/-- Modelled from the spec: `quat_to_euler_zyx(q, roll, pitch, yaw)` of matrix_utils.h (not
under src/), the "quaternion-to-Euler (roll-pitch-yaw, zyx order) conversion"; the result is
(roll, pitch, yaw). -/
def quat_to_euler_zyx (L : Libm K) (q : Matrix3d K) : Vector3d K :=
  ![L.atan2 (q 2 1) (q 2 2), L.asin (-(q 2 0)), L.atan2 (q 1 0) (q 0 0)]

/-- What a caller observes from one call.  The functions of g2o_Object.h return by value and
contain no `throw`, status code or flag, so every call of theirs is observed as `returned`;
`rejected` is the outcome of an implementation that signals an error. -/
inductive Outcome (α : Type) where
  | returned : α → Outcome α
  | rejected : Outcome α

/-! ## `class Quadric` -/

/-- The class `Quadric`: a pose and the three semi-axes. -/
@[ext]
structure Quadric (K : Type) where
  pose : SE3Quat K
  scale : Vector3d K

namespace Quadric

/-- The constructor `Quadric()`: identity pose, zero scale. -/
def init : Quadric K := ⟨SE3Quat.identity, 0⟩

/-- The method `fromMinimalVector`: v = (t1,t2,t3,roll,pitch,yaw,s1,s2,s3). -/
def fromMinimalVector (L : Libm K) (v : Vector9d K) : Quadric K :=
  let posequat := zyx_euler_to_quat L (v 3) (v 4) (v 5)
  { pose := ⟨posequat, ![v 0, v 1, v 2]⟩
    scale := ![v 6, v 7, v 8] }

/-- The method `fromVector10d`: the decomposition of a dual quadric given by the ten entries of
a symmetric 4×4 matrix. -/
def fromVector10d (L : Libm K) (E : EigenLib K) (v : Vector10d K) : Quadric K :=
  let dual_quadric : Matrix4d K :=
    !![v 0, v 1, v 2, v 3;
       v 1, v 4, v 5, v 6;
       v 2, v 5, v 7, v 8;
       v 3, v 6, v 8, v 9]
  let raw_quadric : Matrix4d K := L.cbrt dual_quadric.det • inverse dual_quadric
  let quadric_33 : Matrix3d K := raw_quadric.submatrix Fin.castSucc Fin.castSucc
  let eigen_vectors := E.eigenvectors quadric_33
  let rotation := E.eulerAngles210 eigen_vectors
  let det := raw_quadric.det / quadric_33.det
  let eigen_values := E.eigenvalues quadric_33
  let eigen_values_inverse : Vector3d K := fun i => (eigen_values i)⁻¹
  let shape : Vector3d K := fun i => L.sqrt |(-det) * eigen_values_inverse i|
  let translation : Vector3d K := ![v 3 / v 9, v 6 / v 9, v 8 / v 9]
  let posequat := zyx_euler_to_quat L (rotation 0) (rotation 1) (rotation 2)
  { pose := ⟨posequat, translation⟩
    scale := shape }

/-- The method `exp_update`: right-multiply the pose by the exponential of the first six
entries, add the last three to the scale. -/
def exp_update (L : Libm K) (q : Quadric K) (update : Vector9d K) : Quadric K :=
  { pose := q.pose * SE3Quat.exp L ![update 0, update 1, update 2, update 3, update 4, update 5]
    scale := q.scale + ![update 6, update 7, update 8] }

/-- The method `transform_from`. -/
def transform_from (q : Quadric K) (Twc : SE3Quat K) : Quadric K :=
  { pose := Twc * q.pose
    scale := q.scale }

/-- The method `transform_to`. -/
def transform_to (q : Quadric K) (Twc : SE3Quat K) : Quadric K :=
  { pose := Twc.inverse * q.pose
    scale := q.scale }

/-- The method `toMinimalVector`: xyz, roll pitch yaw, half scale. -/
def toMinimalVector (L : Libm K) (q : Quadric K) : Vector9d K :=
  let rpy := quat_to_euler_zyx L q.pose.R
  ![q.pose.t 0, q.pose.t 1, q.pose.t 2, rpy 0, rpy 1, rpy 2, q.scale 0, q.scale 1, q.scale 2]

/-- The method `toSymMat`: `Z · diag(a², b², c², −1) · Zᵀ`. -/
def toSymMat (q : Quadric K) : Matrix4d K :=
  let centreAtOrigin : Matrix4d K :=
    Matrix.diagonal ![q.scale 0 ^ 2, q.scale 1 ^ 2, q.scale 2 ^ 2, -1]
  let Z := q.pose.to_homogeneous_matrix
  Z * centreAtOrigin * Z.transpose

/-- The method `toVector10d`.  The ninth entry is written `Q(2.3)` in the source: a call of the
single-index accessor with the `double` 2.3, which converts to index 2. -/
def toVector10d (q : Quadric K) : Vector10d K :=
  let Q := q.toSymMat
  ![Q 0 0, Q 0 1, Q 0 2, Q 0 3, Q 1 1, Q 1 2, Q 1 3, Q 2 2, coeff Q 2, Q 3 3]

/-- The method `toConic`: the inverse of `P · Q · Pᵀ` with `P = calib · [R | t]`. -/
def toConic (q : Quadric K) (campose_wc : SE3Quat K) (calib : Matrix3d K) : Matrix3d K :=
  let P : Matrix (Fin 3) (Fin 4) K :=
    calib * campose_wc.to_homogeneous_matrix.submatrix Fin.castSucc id
  let symMat := q.toSymMat
  let conic : Matrix3d K := P * symMat * P.transpose
  inverse conic

/-- The method `projectOntoImageRect`: x_min y_min x_max y_max. -/
def projectOntoImageRect (L : Libm K) (q : Quadric K) (campose_wc : SE3Quat K)
    (Kalib : Matrix3d K) : Vector4d K :=
  let conic := q.toConic campose_wc Kalib
  let c : Vector6d K :=
    ![conic 0 0, conic 0 1 * 2, conic 1 1, conic 0 2 * 2, conic 1 2 * 2, conic 2 2]
  let y0 := (4 * c 4 * c 0 - 2 * c 1 * c 3 +
              L.sqrt ((2 * c 1 * c 3 - 4 * c 0 * c 4) ^ 2 -
                4 * (c 1 ^ 2 - 4 * c 0 * c 2) * (c 3 ^ 2 - 4 * c 0 * c 5))) /
            (2 * (c 1 ^ 2 - 4 * c 2 * c 0))
  let y1 := (4 * c 4 * c 0 - 2 * c 1 * c 3 -
              L.sqrt ((2 * c 1 * c 3 - 4 * c 0 * c 4) ^ 2 -
                4 * (c 1 ^ 2 - 4 * c 0 * c 2) * (c 3 ^ 2 - 4 * c 0 * c 5))) /
            (2 * (c 1 ^ 2 - 4 * c 2 * c 0))
  let x0 := (4 * c 3 * c 2 - 2 * c 1 * c 4 +
              L.sqrt ((2 * c 1 * c 4 - 4 * c 2 * c 3) ^ 2 -
                4 * (c 1 ^ 2 - 4 * c 0 * c 2) * (c 4 ^ 2 - 4 * c 2 * c 5))) /
            (2 * (c 1 ^ 2 - 4 * c 2 * c 0))
  let x1 := (4 * c 3 * c 2 - 2 * c 1 * c 4 -
              L.sqrt ((2 * c 1 * c 4 - 4 * c 2 * c 3) ^ 2 -
                4 * (c 1 ^ 2 - 4 * c 0 * c 2) * (c 4 ^ 2 - 4 * c 2 * c 5))) /
            (2 * (c 1 ^ 2 - 4 * c 2 * c 0))
  let bottomright : Vector2d K := ![max x0 x1, max y0 y1]
  let topleft : Vector2d K := ![min x0 x1, min y0 y1]
  ![topleft 0, topleft 1, bottomright 0, bottomright 1]

/-- The method `projectOntoImageBbox`: x y w h. -/
def projectOntoImageBbox (L : Libm K) (q : Quadric K) (campose_wc : SE3Quat K)
    (Kalib : Matrix3d K) : Vector4d K :=
  let rect_project := q.projectOntoImageRect L campose_wc Kalib
  let rect_center : Vector2d K :=
    ![(rect_project 2 + rect_project 0) / 2, (rect_project 3 + rect_project 1) / 2]
  let widthheight : Vector2d K :=
    ![rect_project 2 - rect_project 0, rect_project 3 - rect_project 1]
  ![rect_center 0, rect_center 1, widthheight 0, widthheight 1]

/-- The six numbers `c` that `projectOntoImageRect` reads off the conic matrix: the
coefficients (A, B, C, D, E, F) of `A x² + B x y + C y² + D x + E y + F = 0`. -/
def conicCoefficients (conic : Matrix3d K) : Vector6d K :=
  ![conic 0 0, conic 0 1 * 2, conic 1 1, conic 0 2 * 2, conic 1 2 * 2, conic 2 2]

/-- The closed-form part of `projectOntoImageRect`, as a function of the six coefficients. -/
def tangentRect (L : Libm K) (c : Vector6d K) : Vector4d K :=
  let y0 := (4 * c 4 * c 0 - 2 * c 1 * c 3 +
              L.sqrt ((2 * c 1 * c 3 - 4 * c 0 * c 4) ^ 2 -
                4 * (c 1 ^ 2 - 4 * c 0 * c 2) * (c 3 ^ 2 - 4 * c 0 * c 5))) /
            (2 * (c 1 ^ 2 - 4 * c 2 * c 0))
  let y1 := (4 * c 4 * c 0 - 2 * c 1 * c 3 -
              L.sqrt ((2 * c 1 * c 3 - 4 * c 0 * c 4) ^ 2 -
                4 * (c 1 ^ 2 - 4 * c 0 * c 2) * (c 3 ^ 2 - 4 * c 0 * c 5))) /
            (2 * (c 1 ^ 2 - 4 * c 2 * c 0))
  let x0 := (4 * c 3 * c 2 - 2 * c 1 * c 4 +
              L.sqrt ((2 * c 1 * c 4 - 4 * c 2 * c 3) ^ 2 -
                4 * (c 1 ^ 2 - 4 * c 0 * c 2) * (c 4 ^ 2 - 4 * c 2 * c 5))) /
            (2 * (c 1 ^ 2 - 4 * c 2 * c 0))
  let x1 := (4 * c 3 * c 2 - 2 * c 1 * c 4 -
              L.sqrt ((2 * c 1 * c 4 - 4 * c 2 * c 3) ^ 2 -
                4 * (c 1 ^ 2 - 4 * c 0 * c 2) * (c 4 ^ 2 - 4 * c 2 * c 5))) /
            (2 * (c 1 ^ 2 - 4 * c 2 * c 0))
  ![min x0 x1, min y0 y1, max x0 x1, max y0 y1]

/-- The symmetric 4×4 matrix that `fromVector10d` assembles from the ten entries. -/
def assembleDualQuadric (v : Vector10d K) : Matrix4d K :=
  !![v 0, v 1, v 2, v 3;
     v 1, v 4, v 5, v 6;
     v 2, v 5, v 7, v 8;
     v 3, v 6, v 8, v 9]

/-- The matrix `raw_quadric` of `fromVector10d`: the inverse of the assembled matrix times the
cube root of its determinant. -/
def rawQuadric (L : Libm K) (v : Vector10d K) : Matrix4d K :=
  L.cbrt (assembleDualQuadric v).det • inverse (assembleDualQuadric v)

/-- The block `quadric_33` of `fromVector10d`: the top-left 3×3 block of `raw_quadric`. -/
def quadric33 (L : Libm K) (v : Vector10d K) : Matrix3d K :=
  (rawQuadric L v).submatrix Fin.castSucc Fin.castSucc

/-- A call of `fromVector10d` as its caller observes it: the method is `void`, contains no
`throw` and assigns `pose` and `scale` on its single path. -/
def fromVector10d_outcome (L : Libm K) (E : EigenLib K) (v : Vector10d K) : Outcome (Quadric K) :=
  Outcome.returned (fromVector10d L E v)

/-- A call of `projectOntoImageRect` as its caller observes it: the method contains no `throw`
and no test on its operands, and returns the `Vector4d` built on its single path. -/
def projectOntoImageRect_outcome (L : Libm K) (q : Quadric K) (campose_wc : SE3Quat K)
    (Kalib : Matrix3d K) : Outcome (Vector4d K) :=
  Outcome.returned (q.projectOntoImageRect L campose_wc Kalib)

/-- The matrix `P · Q · Pᵀ` that `toConic` inverts (the dual conic of the projection). -/
def dualConic (q : Quadric K) (campose_wc : SE3Quat K) (calib : Matrix3d K) : Matrix3d K :=
  let P : Matrix (Fin 3) (Fin 4) K :=
    calib * campose_wc.to_homogeneous_matrix.submatrix Fin.castSucc id
  P * q.toSymMat * P.transpose

end Quadric

/-- The 3×4 matrix `P · Z`: the projection matrix times the homogeneous pose of a quadric. -/
def projPose (pose campose_wc : SE3Quat K) (calib : Matrix3d K) : Matrix (Fin 3) (Fin 4) K :=
  calib * campose_wc.to_homogeneous_matrix.submatrix Fin.castSucc id * pose.to_homogeneous_matrix

/-- The divisor term `B² − 4AC` of a coefficient vector. -/
def conicDisc (c : Vector6d K) : K := c 1 ^ 2 - 4 * c 0 * c 2

/-- The radicand of the two y values of `projectOntoImageRect`. -/
def radicandY (c : Vector6d K) : K :=
  (2 * c 1 * c 3 - 4 * c 0 * c 4) ^ 2 - 4 * (c 1 ^ 2 - 4 * c 0 * c 2) * (c 3 ^ 2 - 4 * c 0 * c 5)

/-- The radicand of the two x values of `projectOntoImageRect`. -/
def radicandX (c : Vector6d K) : K :=
  (2 * c 1 * c 4 - 4 * c 2 * c 3) ^ 2 - 4 * (c 1 ^ 2 - 4 * c 0 * c 2) * (c 4 ^ 2 - 4 * c 2 * c 5)

/-- The projection of a quadric is defined: `P · Q · Pᵀ` is invertible, `B² − 4AC ≠ 0` and the
two radicands are non-negative. -/
def Quadric.ProjectionDefined (q : Quadric K) (campose_wc : SE3Quat K) (calib : Matrix3d K) :
    Prop :=
  (q.dualConic campose_wc calib).det ≠ 0
    ∧ conicDisc (Quadric.conicCoefficients (q.toConic campose_wc calib)) ≠ 0
    ∧ 0 ≤ radicandX (Quadric.conicCoefficients (q.toConic campose_wc calib))
    ∧ 0 ≤ radicandY (Quadric.conicCoefficients (q.toConic campose_wc calib))

/-- A quotient of two doubles where it is a number: with a zero divisor the code's result is
NaN or ±∞, here `none`. -/
def checkedDiv (a b : K) : Option K := if b = 0 then none else some (a / b)

/-- The libm `sqrt` where it returns a number: for a negative argument the code's result is NaN,
here `none`. -/
def checkedSqrt (L : Libm K) (x : K) : Option K := if x < 0 then none else some (L.sqrt x)

/-- The method `toConic` where its result is a matrix of numbers: Eigen's `inverse()` divides
by the determinant. -/
def Quadric.toConic_checked (q : Quadric K) (campose_wc : SE3Quat K) (calib : Matrix3d K) :
    Option (Matrix3d K) :=
  if (q.dualConic campose_wc calib).det = 0 then none else some (q.toConic campose_wc calib)

/-- The closed-form part of `projectOntoImageRect` where its four results are numbers: every
square root and every quotient of the source is checked. -/
def Quadric.tangentRect_checked (L : Libm K) (c : Vector6d K) : Option (Vector4d K) := do
  let ry ← checkedSqrt L ((2 * c 1 * c 3 - 4 * c 0 * c 4) ^ 2 -
              4 * (c 1 ^ 2 - 4 * c 0 * c 2) * (c 3 ^ 2 - 4 * c 0 * c 5))
  let y0 ← checkedDiv (4 * c 4 * c 0 - 2 * c 1 * c 3 + ry) (2 * (c 1 ^ 2 - 4 * c 2 * c 0))
  let y1 ← checkedDiv (4 * c 4 * c 0 - 2 * c 1 * c 3 - ry) (2 * (c 1 ^ 2 - 4 * c 2 * c 0))
  let rx ← checkedSqrt L ((2 * c 1 * c 4 - 4 * c 2 * c 3) ^ 2 -
              4 * (c 1 ^ 2 - 4 * c 0 * c 2) * (c 4 ^ 2 - 4 * c 2 * c 5))
  let x0 ← checkedDiv (4 * c 3 * c 2 - 2 * c 1 * c 4 + rx) (2 * (c 1 ^ 2 - 4 * c 2 * c 0))
  let x1 ← checkedDiv (4 * c 3 * c 2 - 2 * c 1 * c 4 - rx) (2 * (c 1 ^ 2 - 4 * c 2 * c 0))
  pure ![min x0 x1, min y0 y1, max x0 x1, max y0 y1]

/-- The method `projectOntoImageRect` where its result is a vector of numbers. -/
def Quadric.projectOntoImageRect_checked (L : Libm K) (q : Quadric K) (campose_wc : SE3Quat K)
    (Kalib : Matrix3d K) : Option (Vector4d K) := do
  let conic ← q.toConic_checked campose_wc Kalib
  Quadric.tangentRect_checked L (Quadric.conicCoefficients conic)

/-- The method `projectOntoImageBbox` where its result is a vector of numbers. -/
def Quadric.projectOntoImageBbox_checked (L : Libm K) (q : Quadric K) (campose_wc : SE3Quat K)
    (Kalib : Matrix3d K) : Option (Vector4d K) := do
  let rect_project ← q.projectOntoImageRect_checked L campose_wc Kalib
  pure ![(rect_project 2 + rect_project 0) / 2, (rect_project 3 + rect_project 1) / 2,
    rect_project 2 - rect_project 0, rect_project 3 - rect_project 1]

/-- The row-major upper triangle of a 4×4 matrix, (Q00, Q01, Q02, Q03, Q11, Q12, Q13, Q22, Q23,
Q33): the packing that the layout of `fromVector10d` expects.  This one follows the words of
the specification; the packing of the source is `Quadric.toVector10d`. -/
def upperTriangle (Q : Matrix4d K) : Vector10d K :=
  ![Q 0 0, Q 0 1, Q 0 2, Q 0 3, Q 1 1, Q 1 2, Q 1 3, Q 2 2, Q 2 3, Q 3 3]

/-- The contract of Eigen's `SelfAdjointEigenSolver::eigenvalues()` on the matrix M: the three
values are in increasing order and are the roots, with multiplicity, of the characteristic
polynomial det(x·1 − M). -/
def EigenLib.SortedSpectrum (E : EigenLib K) (M : Matrix3d K) : Prop :=
  (E.eigenvalues M 0 ≤ E.eigenvalues M 1 ∧ E.eigenvalues M 1 ≤ E.eigenvalues M 2)
    ∧ ∀ x : K, (Matrix.diagonal (fun _ : Fin 3 => x) - M).det
        = (x - E.eigenvalues M 0) * (x - E.eigenvalues M 1) * (x - E.eigenvalues M 2)

/-- The result of the eigen-solver on diagonal matrices whose diagonal is increasing: the
eigenvalues are the diagonal entries, the eigenvectors the identity, the Euler angles zero. -/
def diagonalEigen : EigenLib K where
  eigenvalues := fun M => ![M 0 0, M 1 1, M 2 2]
  eigenvectors := fun _ => 1
  eulerAngles210 := fun _ => 0

/-! ## Concrete inputs used below -/

/-- A unit sphere five units in front of the camera (spec §8, "Concrete scenario"). -/
def unitSphereAhead : Quadric K := ⟨⟨1, ![0, 0, 5]⟩, ![1, 1, 1]⟩

/-- A pinhole calibration matrix with focal lengths fx, fy and principal point (cx, cy). -/
def pinhole (fx fy cx cy : K) : Matrix3d K := !![fx, 0, cx; 0, fy, cy; 0, 0, 1]

/-- A quadric centred on the camera's principal plane (z = 0 in the camera frame), to the side
of the optical axis, with semi-axes (3, 3, c). -/
def besideCamera (c : K) : Quadric K := ⟨⟨1, ![5, 5, 0]⟩, ![3, 3, c]⟩

/-- A sphere of radius r five units in front of the camera. -/
def sphereAhead (r : K) : Quadric K := ⟨⟨1, ![0, 0, 5]⟩, ![r, r, r]⟩

/-- A unit sphere tangent to the camera's principal plane. -/
def touchingPrincipalPlane : Quadric K := ⟨⟨1, ![1, 0, 1]⟩, ![1, 1, 1]⟩

/-- A minimal vector: translation (1, 2, 3), roll 1, pitch 1/2, yaw −1, scale (1, 2, 3). -/
def exampleMinimalVector : Vector9d K := ![1, 2, 3, 1, 1 / 2, -1, 1, 2, 3]

/-- A rigid transform: a quarter turn about the z axis followed by the shift (1, 2, 3). -/
def quarterTurn : SE3Quat K := ⟨!![0, -1, 0; 1, 0, 0; 0, 0, 1], ![1, 2, 3]⟩

/-- An axis-aligned ellipsoid with semi-axes (1, 2, 3) centred at (2, 0, 5). -/
def offAxisEllipsoid : Quadric K := ⟨⟨1, ![2, 0, 5]⟩, ![1, 2, 3]⟩

/-- The ten entries of `diag(1, 1, 0, −1)`: the dual quadric of a flat unit disc. -/
def flatDiscVector : Vector10d K := ![1, 0, 0, 0, 1, 0, 0, 0, 0, -1]

/-- The coefficients of the unit circle x² + y² − 1 = 0. -/
def unitCircle : Vector6d K := ![1, 0, 1, 0, 0, -1]

/-- A 9-vector update that only lowers the first semi-axis by 2. -/
def shrinkUpdate : Vector9d K := ![0, 0, 0, 0, 0, 0, -2, 0, 0]

/-! ## The input stream of `read` -/

/-- The class `VertexQuadric`, a `BaseVertex<9, Quadric>`: the state is the estimate. -/
structure VertexQuadric (K : Type) where
  _estimate : Quadric K

/-- The pose vertex `VertexSE3Expmap` of g2o, a `BaseVertex<6, SE3Quat>`: its estimate. -/
structure VertexSE3Expmap (K : Type) where
  _estimate : SE3Quat K

namespace VertexQuadric

/-- The method `setToOriginImpl`. -/
def setToOriginImpl (_v : VertexQuadric K) : VertexQuadric K :=
  { _estimate := Quadric.init }

/-- The method `oplusImpl`: the nine doubles at `update_` are applied with `exp_update`. -/
def oplusImpl (L : Libm K) (v : VertexQuadric K) (update_ : Vector9d K) : VertexQuadric K :=
  { _estimate := v._estimate.exp_update L update_ }

end VertexQuadric

/-! ## `class EdgeSE3QuadricProj` -/

/-- The class `EdgeSE3QuadricProj`, a `BaseBinaryEdge<4, Vector4d, ...>`: calibration,
measurement and error vector. -/
structure EdgeSE3QuadricProj (K : Type) where
  calib : Matrix3d K
  _measurement : Vector4d K
  _error : Vector4d K

/-- The method `computeError`, with the two vertices of the edge as arguments, in exact
arithmetic: it is the code's residual where the projection divides by non-zero numbers and takes
roots of non-negative ones (`computeError_checked` below says where). -/
def EdgeSE3QuadricProj.computeError (L : Libm K) (e : EdgeSE3QuadricProj K)
    (SE3Vertex : VertexSE3Expmap K) (quadricVertex : VertexQuadric K) :
    EdgeSE3QuadricProj K :=
  let cam_pose_Tcw := SE3Vertex._estimate
  let global_quadric := quadricVertex._estimate
  let rect_project := global_quadric.projectOntoImageBbox L cam_pose_Tcw e.calib
  { e with _error := fun i => (rect_project i - e._measurement i) ^ 2 }

/-- The method `computeError` where the residual is a vector of numbers: `none` when the
projection divides by zero or takes the root of a negative number, where the code's residual is
NaN or ±∞. -/
def EdgeSE3QuadricProj.computeError_checked (L : Libm K) (e : EdgeSE3QuadricProj K)
    (SE3Vertex : VertexSE3Expmap K) (quadricVertex : VertexQuadric K) :
    Option (EdgeSE3QuadricProj K) := do
  let cam_pose_Tcw := SE3Vertex._estimate
  let global_quadric := quadricVertex._estimate
  let rect_project ← global_quadric.projectOntoImageBbox_checked L cam_pose_Tcw e.calib
  pure { e with _error := fun i => (rect_project i - e._measurement i) ^ 2 }

/-- An edge with the identity calibration, the measurement (0, 0, 0, 0) and no error yet. -/
def plainEdge : EdgeSE3QuadricProj K := ⟨1, 0, 0⟩

end Defs

/-! ## Theorems -/

section Theorems

variable {K : Type} [LinearOrderedField K]

theorem SE3Quat.mul_R (A B : SE3Quat K) : (A * B).R = A.R * B.R := rfl

theorem SE3Quat.mul_t (A B : SE3Quat K) : (A * B).t = A.t + A.R.mulVec B.t := rfl

theorem SE3Quat.mul_identity (A : SE3Quat K) : A * SE3Quat.identity = A := by
  ext <;> simp [SE3Quat.mul_R, SE3Quat.mul_t, SE3Quat.identity]

theorem SE3Quat.mul_assoc (A B C : SE3Quat K) : A * B * C = A * (B * C) := by
  ext1
  · simp [SE3Quat.mul_R, Matrix.mul_assoc]
  · simp [SE3Quat.mul_R, SE3Quat.mul_t, Matrix.mulVec_add, Matrix.mulVec_mulVec, add_assoc]

theorem SE3Quat.inverse_mul_self (T : SE3Quat K) (hT : T.R.transpose * T.R = 1) :
    T.inverse * T = SE3Quat.identity := by
  ext1
  · simpa [SE3Quat.mul_R, SE3Quat.inverse, SE3Quat.identity] using hT
  · simp [SE3Quat.mul_t, SE3Quat.inverse, SE3Quat.identity, Matrix.mulVec_neg]

theorem SE3Quat.exp_zero : SE3Quat.exp realLibm 0 = SE3Quat.identity := by
  have h : (![(0 : ℝ), 0, 0] : Vector3d ℝ) = 0 := by
    ext i; fin_cases i <;> rfl
  simp [SE3Quat.exp, realLibm, SE3Quat.identity, h]

/-- C1. Update identity: updating any quadric by the all-zero 9-vector returns the same quadric
(same pose, same scale). -/
theorem Quadric.exp_update_zero (q : Quadric ℝ) : q.exp_update realLibm 0 = q := by
  have h6 : (![(0 : ℝ), 0, 0, 0, 0, 0] : Vector6d ℝ) = 0 := by
    ext i; fin_cases i <;> rfl
  have h3 : (![(0 : ℝ), 0, 0] : Vector3d ℝ) = 0 := by
    ext i; fin_cases i <;> rfl
  ext1
  · simp [Quadric.exp_update, h6, SE3Quat.exp_zero, SE3Quat.mul_identity]
  · simp [Quadric.exp_update, h3]

/-- C2. Frame inversion: for every quadric q and every rigid transform T (orthonormal rotation
of determinant one), moving q with transform_from and back with transform_to gives q again:
the pose is the inverse of T times T times the pose of q, and the scale is untouched by both
operations. -/
theorem Quadric.transform_to_transform_from (q : Quadric K) (T : SE3Quat K) (hT : T.IsRigid) :
    (q.transform_from T).transform_to T = q
      ∧ (q.transform_from T).scale = q.scale
      ∧ ((q.transform_from T).transform_to T).pose = T.inverse * (T * q.pose) := by
  refine ⟨?_, rfl, rfl⟩
  ext1
  · show T.inverse * (T * q.pose) = q.pose
    rw [← SE3Quat.mul_assoc, SE3Quat.inverse_mul_self T hT.1]
    ext <;> simp [SE3Quat.mul_R, SE3Quat.mul_t, SE3Quat.identity]
  · rfl

/-- Witness for C2: the unit sphere ahead of the camera, moved by a quarter turn and a shift. -/
theorem Quadric.transform_to_transform_from_witness :
    (quarterTurn : SE3Quat ℚ).IsRigid
    ∧ (((unitSphereAhead : Quadric ℚ).transform_from quarterTurn).transform_to quarterTurn
          = unitSphereAhead
        ∧ ((unitSphereAhead : Quadric ℚ).transform_from quarterTurn).scale = unitSphereAhead.scale
        ∧ (((unitSphereAhead : Quadric ℚ).transform_from quarterTurn).transform_to quarterTurn).pose
            = (quarterTurn : SE3Quat ℚ).inverse * (quarterTurn * unitSphereAhead.pose)) :=
  have h : (quarterTurn : SE3Quat ℚ).IsRigid := by
    constructor
    · ext i j
      fin_cases i <;> fin_cases j <;>
        simp [quarterTurn, Matrix.mul_apply, Fin.sum_univ_three, Matrix.vecHead, Matrix.vecTail]
    · simp [quarterTurn, Matrix.det_fin_three, Matrix.vecHead, Matrix.vecTail]
  ⟨h, Quadric.transform_to_transform_from unitSphereAhead quarterTurn h⟩

/-! ### The projection: conic, dual conic and the closed-form rectangle -/

theorem Quadric.projectOntoImageRect_eq (L : Libm K) (q : Quadric K)
    (campose_wc : SE3Quat K) (Kalib : Matrix3d K) :
    q.projectOntoImageRect L campose_wc Kalib
      = Quadric.tangentRect L (Quadric.conicCoefficients (q.toConic campose_wc Kalib)) := rfl

theorem Quadric.toConic_eq (q : Quadric K) (campose_wc : SE3Quat K) (calib : Matrix3d K) :
    q.toConic campose_wc calib = inverse (q.dualConic campose_wc calib) := rfl

theorem Quadric.toSymMat_apply (q : Quadric K) (i j : Fin 4) :
    q.toSymMat i j =
      q.pose.to_homogeneous_matrix i 0 * q.scale 0 ^ 2 * q.pose.to_homogeneous_matrix j 0
      + q.pose.to_homogeneous_matrix i 1 * q.scale 1 ^ 2 * q.pose.to_homogeneous_matrix j 1
      + q.pose.to_homogeneous_matrix i 2 * q.scale 2 ^ 2 * q.pose.to_homogeneous_matrix j 2
      - q.pose.to_homogeneous_matrix i 3 * q.pose.to_homogeneous_matrix j 3 := by
  simp only [Quadric.toSymMat, Matrix.mul_apply, Fin.sum_univ_four, Matrix.transpose_apply,
    Matrix.diagonal_apply]
  simp
  ring

theorem Quadric.dualConic_apply (q : Quadric K) (campose_wc : SE3Quat K) (calib : Matrix3d K)
    (i j : Fin 3) :
    q.dualConic campose_wc calib i j
      = projPose q.pose campose_wc calib i 0 * q.scale 0 ^ 2 * projPose q.pose campose_wc calib j 0
        + projPose q.pose campose_wc calib i 1 * q.scale 1 ^ 2 * projPose q.pose campose_wc calib j 1
        + projPose q.pose campose_wc calib i 2 * q.scale 2 ^ 2 * projPose q.pose campose_wc calib j 2
        - projPose q.pose campose_wc calib i 3 * projPose q.pose campose_wc calib j 3 := by
  have h : q.dualConic campose_wc calib
      = projPose q.pose campose_wc calib
          * Matrix.diagonal ![q.scale 0 ^ 2, q.scale 1 ^ 2, q.scale 2 ^ 2, -1]
          * (projPose q.pose campose_wc calib).transpose := by
    simp only [Quadric.dualConic, Quadric.toSymMat, projPose, Matrix.transpose_mul,
      Matrix.mul_assoc]
  rw [h]
  simp only [Matrix.mul_apply, Fin.sum_univ_four, Matrix.transpose_apply, Matrix.diagonal_apply]
  simp
  ring

theorem Quadric.dualConic_symm (q : Quadric K) (campose_wc : SE3Quat K) (calib : Matrix3d K)
    (i j : Fin 3) : q.dualConic campose_wc calib i j = q.dualConic campose_wc calib j i := by
  rw [Quadric.dualConic_apply, Quadric.dualConic_apply]
  ring

theorem conicCoefficients_inverse (M : Matrix3d K) (h01 : M 1 0 = M 0 1) (h02 : M 2 0 = M 0 2)
    (h12 : M 2 1 = M 1 2) :
    Quadric.conicCoefficients (inverse M) 0 = (M.det)⁻¹ * (M 1 1 * M 2 2 - M 1 2 ^ 2)
    ∧ Quadric.conicCoefficients (inverse M) 1 = (M.det)⁻¹ * (2 * (M 0 2 * M 1 2 - M 0 1 * M 2 2))
    ∧ Quadric.conicCoefficients (inverse M) 2 = (M.det)⁻¹ * (M 0 0 * M 2 2 - M 0 2 ^ 2)
    ∧ Quadric.conicCoefficients (inverse M) 3 = (M.det)⁻¹ * (2 * (M 0 1 * M 1 2 - M 0 2 * M 1 1))
    ∧ Quadric.conicCoefficients (inverse M) 4 = (M.det)⁻¹ * (2 * (M 0 1 * M 0 2 - M 0 0 * M 1 2))
    ∧ Quadric.conicCoefficients (inverse M) 5 = (M.det)⁻¹ * (M 0 0 * M 1 1 - M 0 1 ^ 2) := by
  have a00 : (inverse M) 0 0 = (M.det)⁻¹ * (M 1 1 * M 2 2 - M 1 2 * M 2 1) := by
    simp only [inverse, Matrix.smul_apply, smul_eq_mul, Matrix.adjugate_fin_three]; rfl
  have a01 : (inverse M) 0 1 = (M.det)⁻¹ * (-(M 0 1 * M 2 2) + M 0 2 * M 2 1) := by
    simp only [inverse, Matrix.smul_apply, smul_eq_mul, Matrix.adjugate_fin_three]; rfl
  have a11 : (inverse M) 1 1 = (M.det)⁻¹ * (M 0 0 * M 2 2 - M 0 2 * M 2 0) := by
    simp only [inverse, Matrix.smul_apply, smul_eq_mul, Matrix.adjugate_fin_three]; rfl
  have a02 : (inverse M) 0 2 = (M.det)⁻¹ * (M 0 1 * M 1 2 - M 0 2 * M 1 1) := by
    simp only [inverse, Matrix.smul_apply, smul_eq_mul, Matrix.adjugate_fin_three]; rfl
  have a12 : (inverse M) 1 2 = (M.det)⁻¹ * (-(M 0 0 * M 1 2) + M 0 2 * M 1 0) := by
    simp only [inverse, Matrix.smul_apply, smul_eq_mul, Matrix.adjugate_fin_three]; rfl
  have a22 : (inverse M) 2 2 = (M.det)⁻¹ * (M 0 0 * M 1 1 - M 0 1 * M 1 0) := by
    simp only [inverse, Matrix.smul_apply, smul_eq_mul, Matrix.adjugate_fin_three]; rfl
  refine ⟨?_, ?_, ?_, ?_, ?_, ?_⟩
  · show (inverse M) 0 0 = _
    rw [a00, h12]; ring
  · show (inverse M) 0 1 * 2 = _
    rw [a01, h12]; ring
  · show (inverse M) 1 1 = _
    rw [a11, h02]; ring
  · show (inverse M) 0 2 * 2 = _
    rw [a02]; ring
  · show (inverse M) 1 2 * 2 = _
    rw [a12, h01]; ring
  · show (inverse M) 2 2 = _
    rw [a22, h01]; ring

theorem det_sym3 (M : Matrix3d K) (h01 : M 1 0 = M 0 1) (h02 : M 2 0 = M 0 2)
    (h12 : M 2 1 = M 1 2) :
    M.det = M 0 0 * (M 1 1 * M 2 2 - M 1 2 ^ 2) - M 0 1 * (M 0 1 * M 2 2 - M 1 2 * M 0 2)
      + M 0 2 * (M 0 1 * M 1 2 - M 1 1 * M 0 2) := by
  rw [Matrix.det_fin_three, h01, h02, h12]
  ring

theorem conic_quadratics (M : Matrix3d K) (h01 : M 1 0 = M 0 1) (h02 : M 2 0 = M 0 2)
    (h12 : M 2 1 = M 1 2) (hdet : M.det ≠ 0) (c : Vector6d K) (hc : c = Quadric.conicCoefficients (inverse M)) :
    conicDisc c = -4 * M 2 2 / M.det
    ∧ (∀ z : K, (c 1 ^ 2 - 4 * c 0 * c 2) * z ^ 2 + (2 * c 1 * c 4 - 4 * c 2 * c 3) * z
          + (c 4 ^ 2 - 4 * c 2 * c 5)
        = -4 / M.det * (M 2 2 * z ^ 2 - 2 * M 0 2 * z + M 0 0))
    ∧ (∀ z : K, (c 1 ^ 2 - 4 * c 0 * c 2) * z ^ 2 + (2 * c 1 * c 3 - 4 * c 0 * c 4) * z
          + (c 3 ^ 2 - 4 * c 0 * c 5)
        = -4 / M.det * (M 2 2 * z ^ 2 - 2 * M 1 2 * z + M 1 1)) := by
  obtain ⟨e0, e1, e2, e3, e4, e5⟩ := conicCoefficients_inverse M h01 h02 h12
  have hD := det_sym3 M h01 h02 h12
  have hdD : (M.det)⁻¹ * M.det = 1 := inv_mul_cancel₀ hdet
  subst hc
  rw [conicDisc, e0, e1, e2, e3, e4, e5]
  simp only [div_eq_mul_inv]
  generalize M.det = D at hD hdD ⊢
  generalize D⁻¹ = d at hdD ⊢
  generalize M 0 0 = m00 at hD ⊢
  generalize M 0 1 = m01 at hD ⊢
  generalize M 0 2 = m02 at hD ⊢
  generalize M 1 1 = m11 at hD ⊢
  generalize M 1 2 = m12 at hD ⊢
  generalize M 2 2 = m22 at hD ⊢
  have k1 : (2 * (m02 * m12 - m01 * m22)) ^ 2 - 4 * (m11 * m22 - m12 ^ 2) * (m00 * m22 - m02 ^ 2)
      = -4 * m22 * D := by rw [hD]; ring
  have k2 : 2 * (2 * (m02 * m12 - m01 * m22)) * (2 * (m01 * m02 - m00 * m12))
        - 4 * (m00 * m22 - m02 ^ 2) * (2 * (m01 * m12 - m02 * m11))
      = 8 * m02 * D := by rw [hD]; ring
  have k3 : (2 * (m01 * m02 - m00 * m12)) ^ 2 - 4 * (m00 * m22 - m02 ^ 2) * (m00 * m11 - m01 ^ 2)
      = -4 * m00 * D := by rw [hD]; ring
  have k4 : 2 * (2 * (m02 * m12 - m01 * m22)) * (2 * (m01 * m12 - m02 * m11))
        - 4 * (m11 * m22 - m12 ^ 2) * (2 * (m01 * m02 - m00 * m12))
      = 8 * m12 * D := by rw [hD]; ring
  have k5 : (2 * (m01 * m12 - m02 * m11)) ^ 2 - 4 * (m11 * m22 - m12 ^ 2) * (m00 * m11 - m01 ^ 2)
      = -4 * m11 * D := by rw [hD]; ring
  refine ⟨?_, ?_, ?_⟩
  · linear_combination d ^ 2 * k1 - 4 * d * m22 * hdD
  · intro z
    linear_combination (d ^ 2 * z ^ 2) * k1 + (d ^ 2 * z) * k2 + d ^ 2 * k3
      - 4 * d * (m22 * z ^ 2 - 2 * m02 * z + m00) * hdD
  · intro z
    linear_combination (d ^ 2 * z ^ 2) * k1 + (d ^ 2 * z) * k4 + d ^ 2 * k5
      - 4 * d * (m22 * z ^ 2 - 2 * m12 * z + m11) * hdD

theorem castSucc_two3 : (Fin.castSucc (2 : Fin 3) : Fin 4) = 2 := rfl

/-- With the identity camera pose the matrix `P · Z` is `calib · [R | t]`. -/
theorem projPose_identity (pose : SE3Quat K) (calib : Matrix3d K) (i : Fin 3) :
    projPose pose SE3Quat.identity calib i 0
        = calib i 0 * pose.R 0 0 + calib i 1 * pose.R 1 0 + calib i 2 * pose.R 2 0
    ∧ projPose pose SE3Quat.identity calib i 1
        = calib i 0 * pose.R 0 1 + calib i 1 * pose.R 1 1 + calib i 2 * pose.R 2 1
    ∧ projPose pose SE3Quat.identity calib i 2
        = calib i 0 * pose.R 0 2 + calib i 1 * pose.R 1 2 + calib i 2 * pose.R 2 2
    ∧ projPose pose SE3Quat.identity calib i 3
        = calib i 0 * pose.t 0 + calib i 1 * pose.t 1 + calib i 2 * pose.t 2 := by
  simp only [projPose, Matrix.mul_apply, Fin.sum_univ_four, Fin.sum_univ_three,
    Matrix.submatrix_apply, SE3Quat.to_homogeneous_matrix, SE3Quat.identity, Matrix.one_fin_three,
    id]
  dsimp [Matrix.vecHead, Matrix.vecTail, castSucc_two3]
  refine ⟨by ring, by ring, by ring, by ring⟩

/-- The dual conic of a quadric with identity rotation seen from the identity camera pose. -/
theorem Quadric.dualConic_axis (t s : Vector3d K) (calib : Matrix3d K) (i j : Fin 3) :
    (⟨⟨1, t⟩, s⟩ : Quadric K).dualConic SE3Quat.identity calib i j
      = calib i 0 * s 0 ^ 2 * calib j 0 + calib i 1 * s 1 ^ 2 * calib j 1
        + calib i 2 * s 2 ^ 2 * calib j 2
        - (calib i 0 * t 0 + calib i 1 * t 1 + calib i 2 * t 2)
          * (calib j 0 * t 0 + calib j 1 * t 1 + calib j 2 * t 2) := by
  obtain ⟨a0, a1, a2, a3⟩ := projPose_identity (⟨1, t⟩ : SE3Quat K) calib i
  obtain ⟨b0, b1, b2, b3⟩ := projPose_identity (⟨1, t⟩ : SE3Quat K) calib j
  rw [Quadric.dualConic_apply]
  dsimp only
  rw [a0, a1, a2, a3, b0, b1, b2, b3]
  simp [Matrix.one_apply]

/-- The determinant of `P · Q · Pᵀ` and the six conic coefficients from its entries. -/
theorem Quadric.coefficients_of_dualConic (q : Quadric K) (cam : SE3Quat K) (calib : Matrix3d K)
    (m00 m01 m02 m11 m12 m22 D : K)
    (h00 : q.dualConic cam calib 0 0 = m00) (h01 : q.dualConic cam calib 0 1 = m01)
    (h02 : q.dualConic cam calib 0 2 = m02) (h11 : q.dualConic cam calib 1 1 = m11)
    (h12 : q.dualConic cam calib 1 2 = m12) (h22 : q.dualConic cam calib 2 2 = m22)
    (hD : D = m00 * (m11 * m22 - m12 ^ 2) - m01 * (m01 * m22 - m12 * m02)
      + m02 * (m01 * m12 - m11 * m02)) :
    (q.dualConic cam calib).det = D
    ∧ Quadric.conicCoefficients (q.toConic cam calib) 0 = D⁻¹ * (m11 * m22 - m12 ^ 2)
    ∧ Quadric.conicCoefficients (q.toConic cam calib) 1 = D⁻¹ * (2 * (m02 * m12 - m01 * m22))
    ∧ Quadric.conicCoefficients (q.toConic cam calib) 2 = D⁻¹ * (m00 * m22 - m02 ^ 2)
    ∧ Quadric.conicCoefficients (q.toConic cam calib) 3 = D⁻¹ * (2 * (m01 * m12 - m02 * m11))
    ∧ Quadric.conicCoefficients (q.toConic cam calib) 4 = D⁻¹ * (2 * (m01 * m02 - m00 * m12))
    ∧ Quadric.conicCoefficients (q.toConic cam calib) 5 = D⁻¹ * (m00 * m11 - m01 ^ 2) := by
  have s01 := q.dualConic_symm cam calib 1 0
  have s02 := q.dualConic_symm cam calib 2 0
  have s12 := q.dualConic_symm cam calib 2 1
  have hdet := det_sym3 (q.dualConic cam calib) s01 s02 s12
  rw [h00, h01, h02, h11, h12, h22, ← hD] at hdet
  obtain ⟨e0, e1, e2, e3, e4, e5⟩ := conicCoefficients_inverse (q.dualConic cam calib) s01 s02 s12
  rw [h00, h01, h02, h11, h12, h22, hdet] at *
  exact ⟨rfl, e0, e1, e2, e3, e4, e5⟩

theorem zyx_euler_to_quat_entries (L : Libm K) (roll pitch yaw : K) :
    zyx_euler_to_quat L roll pitch yaw 2 0 = -L.sin pitch
    ∧ zyx_euler_to_quat L roll pitch yaw 2 1 = L.cos pitch * L.sin roll
    ∧ zyx_euler_to_quat L roll pitch yaw 2 2 = L.cos pitch * L.cos roll
    ∧ zyx_euler_to_quat L roll pitch yaw 1 0 = L.cos pitch * L.sin yaw
    ∧ zyx_euler_to_quat L roll pitch yaw 0 0 = L.cos pitch * L.cos yaw := by
  simp only [zyx_euler_to_quat, Matrix.mul_apply, Fin.sum_univ_three]
  dsimp [Matrix.vecHead, Matrix.vecTail]
  refine ⟨by ring, by ring, by ring, by ring, by ring⟩

theorem Quadric.fromVector10d_translation (L : Libm K) (E : EigenLib K) (v : Vector10d K) :
    (Quadric.fromVector10d L E v).pose.t = ![v 3 / v 9, v 6 / v 9, v 8 / v 9] := rfl

theorem Quadric.toVector10d_entries (q : Quadric K) :
    q.toVector10d 3 = q.toSymMat 0 3 ∧ q.toVector10d 6 = q.toSymMat 1 3
    ∧ q.toVector10d 8 = q.toSymMat 2 0 ∧ q.toVector10d 9 = q.toSymMat 3 3 :=
  ⟨rfl, rfl, rfl, rfl⟩

/-- C3 (the code at a failing input). Dual-quadric round trip: for the axis-aligned ellipsoid
with semi-axes (1, 2, 3) centred at (2, 0, 5), fromVector10d applied to toVector10d gives the
translation (2, 0, 10) and not (2, 0, 5): entry 8 of toVector10d is the single-index access
`Q(2.3)`, which is Q(2,0) = −10, not Q(2,3) = −5. -/
theorem Quadric.dual_roundtrip_translation_off (L : Libm K) (E : EigenLib K) :
    (Quadric.fromVector10d L E (offAxisEllipsoid : Quadric K).toVector10d).pose.t = ![2, 0, 10]
    ∧ (offAxisEllipsoid : Quadric K).pose.t = ![2, 0, 5]
    ∧ (offAxisEllipsoid : Quadric K).toVector10d 8 = (offAxisEllipsoid : Quadric K).toSymMat 2 0
    ∧ (offAxisEllipsoid : Quadric K).toSymMat 2 0 = -10
    ∧ (offAxisEllipsoid : Quadric K).toSymMat 2 3 = -5 := by
  obtain ⟨e3, e6, e8, e9⟩ := Quadric.toVector10d_entries (offAxisEllipsoid : Quadric K)
  have q03 : (offAxisEllipsoid : Quadric K).toSymMat 0 3 = -2 := by
    rw [Quadric.toSymMat_apply]
    simp only [offAxisEllipsoid, SE3Quat.to_homogeneous_matrix, Matrix.one_fin_three]
    dsimp [Matrix.vecHead, Matrix.vecTail]
    norm_num
  have q13 : (offAxisEllipsoid : Quadric K).toSymMat 1 3 = 0 := by
    rw [Quadric.toSymMat_apply]
    simp only [offAxisEllipsoid, SE3Quat.to_homogeneous_matrix, Matrix.one_fin_three]
    dsimp [Matrix.vecHead, Matrix.vecTail]
    norm_num
  have q20 : (offAxisEllipsoid : Quadric K).toSymMat 2 0 = -10 := by
    rw [Quadric.toSymMat_apply]
    simp only [offAxisEllipsoid, SE3Quat.to_homogeneous_matrix, Matrix.one_fin_three]
    dsimp [Matrix.vecHead, Matrix.vecTail]
    norm_num
  have q23 : (offAxisEllipsoid : Quadric K).toSymMat 2 3 = -5 := by
    rw [Quadric.toSymMat_apply]
    simp only [offAxisEllipsoid, SE3Quat.to_homogeneous_matrix, Matrix.one_fin_three]
    dsimp [Matrix.vecHead, Matrix.vecTail]
    norm_num
  have q33 : (offAxisEllipsoid : Quadric K).toSymMat 3 3 = -1 := by
    rw [Quadric.toSymMat_apply]
    simp only [offAxisEllipsoid, SE3Quat.to_homogeneous_matrix, Matrix.one_fin_three]
    dsimp [Matrix.vecHead, Matrix.vecTail]
    norm_num
  refine ⟨?_, rfl, e8, q20, q23⟩
  rw [Quadric.fromVector10d_translation, e3, e6, e8, e9, q03, q13, q20, q33]
  norm_num

theorem mul_inverse_iff {n : Nat} (A : Matrix (Fin (n + 1)) (Fin (n + 1)) K) :
    A.det ≠ 0 ↔ A * inverse A = 1 := by
  constructor
  · intro h
    rw [inverse, Matrix.mul_smul, Matrix.mul_adjugate, smul_smul, inv_mul_cancel₀ h, one_smul]
  · intro h hdet
    rw [inverse, hdet, inv_zero, zero_smul, Matrix.mul_zero] at h
    have := congrFun (congrFun h 0) 0
    simp at this

/-- C5 (amended). Degeneracy is not handled in the dual-quadric decomposition: fromVector10d has
no error result.  For every 10-vector, singular or not, the call returns a Quadric, whose
translation is (v3/v9, v6/v9, v8/v9); and the matrix it multiplies by the cube root of the
determinant is an inverse of the assembled matrix exactly when the determinant is non-zero. -/
theorem Quadric.fromVector10d_no_rejection (L : Libm K) (E : EigenLib K) (v : Vector10d K) :
    Quadric.fromVector10d_outcome L E v = Outcome.returned (Quadric.fromVector10d L E v)
    ∧ (Quadric.fromVector10d L E v).pose.t = ![v 3 / v 9, v 6 / v 9, v 8 / v 9]
    ∧ ((Quadric.assembleDualQuadric v).det ≠ 0
        ↔ Quadric.assembleDualQuadric v * inverse (Quadric.assembleDualQuadric v) = 1) :=
  ⟨rfl, rfl, mul_inverse_iff _⟩

theorem Quadric.assembleDualQuadric_flatDisc :
    Quadric.assembleDualQuadric (flatDiscVector : Vector10d K) = Matrix.diagonal ![1, 1, 0, -1] := by
  ext i j
  fin_cases i <;> fin_cases j <;> rfl

/-- Counterexample to C5 as stated: the ten entries of diag(1, 1, 0, −1), the dual quadric of a
flat disc.  The assembled matrix has determinant zero and the call is not rejected, whatever
the eigen-solver returns. -/
theorem Quadric.fromVector10d_degenerate_counterexample :
    (Quadric.assembleDualQuadric (flatDiscVector : Vector10d ℝ)).det = 0
    ∧ ∀ E : EigenLib ℝ,
        Quadric.fromVector10d_outcome realLibm E flatDiscVector ≠ Outcome.rejected := by
  constructor
  · rw [Quadric.assembleDualQuadric_flatDisc, Matrix.det_diagonal, Fin.prod_univ_four]
    dsimp [Matrix.vecHead, Matrix.vecTail]
    norm_num
  · intro E h
    cases h

/-- C6 (amended). Projection degeneracy is not detected: projectOntoImageRect has no check of
B² − 4AC and no way to reject.  For every input the call returns the four closed-form
quotients, each with divisor 2·(B² − 4AC), and that divisor is zero exactly when
B² − 4AC = 0. -/
theorem Quadric.projectOntoImageRect_no_rejection (L : Libm K) (q : Quadric K)
    (cam : SE3Quat K) (calib : Matrix3d K) :
    q.projectOntoImageRect_outcome L cam calib
        = Outcome.returned (Quadric.tangentRect L (Quadric.conicCoefficients (q.toConic cam calib)))
    ∧ (∀ c : Vector6d K, Quadric.tangentRect L c
          = ![min ((4 * c 3 * c 2 - 2 * c 1 * c 4 + L.sqrt (radicandX c)) / (2 * conicDisc c))
                ((4 * c 3 * c 2 - 2 * c 1 * c 4 - L.sqrt (radicandX c)) / (2 * conicDisc c)),
              min ((4 * c 4 * c 0 - 2 * c 1 * c 3 + L.sqrt (radicandY c)) / (2 * conicDisc c))
                ((4 * c 4 * c 0 - 2 * c 1 * c 3 - L.sqrt (radicandY c)) / (2 * conicDisc c)),
              max ((4 * c 3 * c 2 - 2 * c 1 * c 4 + L.sqrt (radicandX c)) / (2 * conicDisc c))
                ((4 * c 3 * c 2 - 2 * c 1 * c 4 - L.sqrt (radicandX c)) / (2 * conicDisc c)),
              max ((4 * c 4 * c 0 - 2 * c 1 * c 3 + L.sqrt (radicandY c)) / (2 * conicDisc c))
                ((4 * c 4 * c 0 - 2 * c 1 * c 3 - L.sqrt (radicandY c)) / (2 * conicDisc c))])
    ∧ (∀ c : Vector6d K, 2 * conicDisc c = 0 ↔ conicDisc c = 0) := by
  refine ⟨rfl, ?_, by simp⟩
  intro c
  have hd : 2 * (c 1 ^ 2 - 4 * c 2 * c 0) = 2 * conicDisc c := by
    unfold conicDisc; ring
  simp only [Quadric.tangentRect, hd, radicandX, radicandY]

/-- Counterexample to C6 as stated: a unit sphere tangent to the camera's principal plane.
P·Q·Pᵀ is invertible, the conic has B² − 4AC = 0, and the call is not rejected. -/
theorem Quadric.projectOntoImageRect_degenerate_counterexample :
    ((touchingPrincipalPlane : Quadric ℝ).dualConic SE3Quat.identity 1).det ≠ 0
    ∧ conicDisc (Quadric.conicCoefficients
        ((touchingPrincipalPlane : Quadric ℝ).toConic SE3Quat.identity 1)) = 0
    ∧ (touchingPrincipalPlane : Quadric ℝ).projectOntoImageRect_outcome realLibm SE3Quat.identity 1
        ≠ Outcome.rejected := by
  have h00 : (touchingPrincipalPlane : Quadric ℝ).dualConic SE3Quat.identity 1 0 0 = 0 := by
    rw [touchingPrincipalPlane, Quadric.dualConic_axis]
    simp only [Matrix.one_fin_three]
    dsimp [Matrix.vecHead, Matrix.vecTail]
    norm_num
  have h01 : (touchingPrincipalPlane : Quadric ℝ).dualConic SE3Quat.identity 1 0 1 = 0 := by
    rw [touchingPrincipalPlane, Quadric.dualConic_axis]
    simp only [Matrix.one_fin_three]
    dsimp [Matrix.vecHead, Matrix.vecTail]
    norm_num
  have h02 : (touchingPrincipalPlane : Quadric ℝ).dualConic SE3Quat.identity 1 0 2 = -1 := by
    rw [touchingPrincipalPlane, Quadric.dualConic_axis]
    simp only [Matrix.one_fin_three]
    dsimp [Matrix.vecHead, Matrix.vecTail]
    norm_num
  have h11 : (touchingPrincipalPlane : Quadric ℝ).dualConic SE3Quat.identity 1 1 1 = 1 := by
    rw [touchingPrincipalPlane, Quadric.dualConic_axis]
    simp only [Matrix.one_fin_three]
    dsimp [Matrix.vecHead, Matrix.vecTail]
    norm_num
  have h12 : (touchingPrincipalPlane : Quadric ℝ).dualConic SE3Quat.identity 1 1 2 = 0 := by
    rw [touchingPrincipalPlane, Quadric.dualConic_axis]
    simp only [Matrix.one_fin_three]
    dsimp [Matrix.vecHead, Matrix.vecTail]
    norm_num
  have h22 : (touchingPrincipalPlane : Quadric ℝ).dualConic SE3Quat.identity 1 2 2 = 0 := by
    rw [touchingPrincipalPlane, Quadric.dualConic_axis]
    simp only [Matrix.one_fin_three]
    dsimp [Matrix.vecHead, Matrix.vecTail]
    norm_num
  obtain ⟨hdet, e0, e1, e2, _, _, _⟩ := Quadric.coefficients_of_dualConic
    (touchingPrincipalPlane : Quadric ℝ) SE3Quat.identity 1 _ _ _ _ _ _ (-1)
    h00 h01 h02 h11 h12 h22 (by norm_num)
  refine ⟨by rw [hdet]; norm_num, ?_, ?_⟩
  · rw [conicDisc, e0, e1, e2]; norm_num
  · intro h
    cases h

theorem Quadric.toSymMat_symm_apply (q : Quadric K) (i j : Fin 4) :
    q.toSymMat j i = q.toSymMat i j := by
  rw [Quadric.toSymMat_apply, Quadric.toSymMat_apply]
  ring

/-- C12. Symmetry of the dual quadric: for every pose and every scale, the 4×4 matrix returned
by toSymMat equals its own transpose. -/
theorem Quadric.toSymMat_transpose (q : Quadric K) : q.toSymMat.transpose = q.toSymMat := by
  ext i j
  rw [Matrix.transpose_apply]
  exact q.toSymMat_symm_apply i j

/-- C13 (amended). Scale under the operations: for every quadric q with non-negative scale,
transform_from and transform_to (any transform) leave the scale as it is, hence non-negative;
exp_update adds the last three entries of the update to the scale without clamping, so its
result has scale q.scale + update[6..8], which is non-negative whenever the three increments
are non-negative. -/
theorem Quadric.scale_nonneg_preserved (L : Libm K) (q : Quadric K) (hq : ∀ i, 0 ≤ q.scale i) :
    (∀ T : SE3Quat K, ∀ i, 0 ≤ (q.transform_from T).scale i)
    ∧ (∀ T : SE3Quat K, ∀ i, 0 ≤ (q.transform_to T).scale i)
    ∧ (∀ update : Vector9d K,
        (q.exp_update L update).scale
          = ![q.scale 0 + update 6, q.scale 1 + update 7, q.scale 2 + update 8])
    ∧ (∀ update : Vector9d K, 0 ≤ update 6 → 0 ≤ update 7 → 0 ≤ update 8 →
        ∀ i, 0 ≤ (q.exp_update L update).scale i) := by
  have hs : ∀ update : Vector9d K, (q.exp_update L update).scale
      = ![q.scale 0 + update 6, q.scale 1 + update 7, q.scale 2 + update 8] := by
    intro update
    ext i
    fin_cases i <;> rfl
  refine ⟨fun _ i => hq i, fun _ i => hq i, hs, ?_⟩
  intro update h6 h7 h8 i
  rw [hs]
  fin_cases i
  · exact add_nonneg (hq 0) h6
  · exact add_nonneg (hq 1) h7
  · exact add_nonneg (hq 2) h8

/-- Witness for C13 (amended): the unit sphere ahead of the camera. -/
theorem Quadric.scale_nonneg_preserved_witness :
    (∀ i, 0 ≤ (unitSphereAhead : Quadric ℝ).scale i)
    ∧ ((∀ T : SE3Quat ℝ, ∀ i, 0 ≤ ((unitSphereAhead : Quadric ℝ).transform_from T).scale i)
      ∧ (∀ T : SE3Quat ℝ, ∀ i, 0 ≤ ((unitSphereAhead : Quadric ℝ).transform_to T).scale i)
      ∧ (∀ update : Vector9d ℝ,
          ((unitSphereAhead : Quadric ℝ).exp_update realLibm update).scale
            = ![(unitSphereAhead : Quadric ℝ).scale 0 + update 6,
                (unitSphereAhead : Quadric ℝ).scale 1 + update 7,
                (unitSphereAhead : Quadric ℝ).scale 2 + update 8])
      ∧ (∀ update : Vector9d ℝ, 0 ≤ update 6 → 0 ≤ update 7 → 0 ≤ update 8 →
          ∀ i, 0 ≤ ((unitSphereAhead : Quadric ℝ).exp_update realLibm update).scale i)) :=
  have h : ∀ i, 0 ≤ (unitSphereAhead : Quadric ℝ).scale i := by
    intro i; fin_cases i <;> dsimp [unitSphereAhead, Matrix.vecHead, Matrix.vecTail] <;> norm_num
  ⟨h, Quadric.scale_nonneg_preserved realLibm unitSphereAhead h⟩

/-- Counterexample to C13 as stated: the unit sphere has non-negative scale (1, 1, 1), and
exp_update with the increment (−2, 0, 0) on the scale gives the first semi-axis −1. -/
theorem Quadric.scale_nonneg_counterexample :
    (∀ i, 0 ≤ (unitSphereAhead : Quadric ℝ).scale i)
    ∧ ((unitSphereAhead : Quadric ℝ).exp_update realLibm shrinkUpdate).scale 0 = -1
    ∧ ¬ (∀ i, 0 ≤ ((unitSphereAhead : Quadric ℝ).exp_update realLibm shrinkUpdate).scale i) := by
  have h0 : ((unitSphereAhead : Quadric ℝ).exp_update realLibm shrinkUpdate).scale 0 = -1 := by
    show (1 : ℝ) + -2 = -1
    norm_num
  refine ⟨?_, h0, ?_⟩
  · intro i; fin_cases i <;> dsimp [unitSphereAhead, Matrix.vecHead, Matrix.vecTail] <;> norm_num
  · intro h
    have := h 0
    rw [h0] at this
    norm_num at this

/-- C14. Local-frame update and its composition: exp_update(q, a) has pose q.pose·exp(a[0..5])
and scale q.scale + a[6..8]; applying b after a gives pose q.pose·(exp(a[0..5])·exp(b[0..5])) and
scale q.scale + (a[6..8] + b[6..8]); and two calls of VertexQuadric::oplusImpl leave exactly
that estimate. -/
theorem Quadric.exp_update_compose (L : Libm K) (q : Quadric K) (a b : Vector9d K) :
    (q.exp_update L a).pose = q.pose * SE3Quat.exp L ![a 0, a 1, a 2, a 3, a 4, a 5]
    ∧ (q.exp_update L a).scale = q.scale + ![a 6, a 7, a 8]
    ∧ ((q.exp_update L a).exp_update L b).pose
        = q.pose * (SE3Quat.exp L ![a 0, a 1, a 2, a 3, a 4, a 5]
            * SE3Quat.exp L ![b 0, b 1, b 2, b 3, b 4, b 5])
    ∧ ((q.exp_update L a).exp_update L b).scale
        = q.scale + (![a 6, a 7, a 8] + ![b 6, b 7, b 8])
    ∧ ∀ v : VertexQuadric K,
        ((v.oplusImpl L a).oplusImpl L b)._estimate = (v._estimate.exp_update L a).exp_update L b := by
  refine ⟨rfl, rfl, ?_, ?_, fun _ => rfl⟩
  · show q.pose * _ * _ = _
    rw [SE3Quat.mul_assoc]
  · show q.scale + _ + _ = _
    rw [add_assoc]

theorem Quadric.toSymMat_last_column (q : Quadric K) :
    q.toSymMat 0 3 = -q.pose.t 0 ∧ q.toSymMat 1 3 = -q.pose.t 1 ∧ q.toSymMat 2 3 = -q.pose.t 2
    ∧ q.toSymMat 3 3 = -1 := by
  simp only [Quadric.toSymMat_apply, SE3Quat.to_homogeneous_matrix]
  dsimp [Matrix.vecHead, Matrix.vecTail]
  refine ⟨by ring, by ring, by ring, by ring⟩

/-- C16. Translation recovery: for every quadric q (any rotation, translation t and scale), when
v holds the row-major upper triangle of toSymMat(q), the translation that fromVector10d
computes, (v3/v9, v6/v9, v8/v9), is t; the last column of toSymMat(q) is (−t, −1). -/
theorem Quadric.translation_recovered (L : Libm K) (E : EigenLib K) (q : Quadric K) :
    (Quadric.fromVector10d L E (upperTriangle q.toSymMat)).pose.t = q.pose.t
    ∧ (q.toSymMat 0 3 = -q.pose.t 0 ∧ q.toSymMat 1 3 = -q.pose.t 1
        ∧ q.toSymMat 2 3 = -q.pose.t 2 ∧ q.toSymMat 3 3 = -1) := by
  obtain ⟨h0, h1, h2, h3⟩ := q.toSymMat_last_column
  refine ⟨?_, h0, h1, h2, h3⟩
  have e : (Quadric.fromVector10d L E (upperTriangle q.toSymMat)).pose.t
      = ![q.toSymMat 0 3 / q.toSymMat 3 3, q.toSymMat 1 3 / q.toSymMat 3 3,
          q.toSymMat 2 3 / q.toSymMat 3 3] := rfl
  rw [e, h0, h1, h2, h3]
  ext i
  fin_cases i <;> simp [Matrix.vecHead, Matrix.vecTail]

/-- C15 (the code at a failing input). The packing of toVector10d: entries 0 to 7 and 9 are the
upper-triangle entries of Q = toSymMat(q), but entry 8 is Q(2,0), the value of `Q(2.3)`.  For
the ellipsoid with semi-axes (1, 2, 3) centred at (2, 0, 5), entry 8 is −10 while Q(2,3) = −5,
and assembling the 10-vector does not give back toSymMat(q). -/
theorem Quadric.toVector10d_entry8_off :
    (∀ q : Quadric K, q.toVector10d
        = ![q.toSymMat 0 0, q.toSymMat 0 1, q.toSymMat 0 2, q.toSymMat 0 3, q.toSymMat 1 1,
            q.toSymMat 1 2, q.toSymMat 1 3, q.toSymMat 2 2, q.toSymMat 2 0, q.toSymMat 3 3])
    ∧ (offAxisEllipsoid : Quadric K).toVector10d 8 = -10
    ∧ (offAxisEllipsoid : Quadric K).toSymMat 2 3 = -5
    ∧ Quadric.assembleDualQuadric (offAxisEllipsoid : Quadric K).toVector10d
        ≠ (offAxisEllipsoid : Quadric K).toSymMat := by
  have q20 : (offAxisEllipsoid : Quadric K).toSymMat 2 0 = -10 := by
    rw [Quadric.toSymMat_apply]
    simp only [offAxisEllipsoid, SE3Quat.to_homogeneous_matrix, Matrix.one_fin_three]
    dsimp [Matrix.vecHead, Matrix.vecTail]
    norm_num
  have q23 : (offAxisEllipsoid : Quadric K).toSymMat 2 3 = -5 := by
    rw [(Quadric.toSymMat_last_column _).2.2.1]
    rfl
  have e8 : (offAxisEllipsoid : Quadric K).toVector10d 8
      = (offAxisEllipsoid : Quadric K).toSymMat 2 0 := rfl
  refine ⟨fun q => rfl, by rw [e8, q20], q23, ?_⟩
  intro h
  have h' := congrFun (congrFun h 2) 3
  have e : Quadric.assembleDualQuadric (offAxisEllipsoid : Quadric K).toVector10d 2 3
      = (offAxisEllipsoid : Quadric K).toVector10d 8 := rfl
  rw [e, e8, q20, q23] at h'
  norm_num at h'

theorem Quadric.conicCoefficients_smul (k : K) (C : Matrix3d K) :
    Quadric.conicCoefficients (k • C) = k • Quadric.conicCoefficients C := by
  ext i
  fin_cases i
  · show k * C 0 0 = k * C 0 0
    rfl
  · show k * C 0 1 * 2 = k * (C 0 1 * 2)
    ring
  · show k * C 1 1 = k * C 1 1
    rfl
  · show k * C 0 2 * 2 = k * (C 0 2 * 2)
    ring
  · show k * C 1 2 * 2 = k * (C 1 2 * 2)
    ring
  · show k * C 2 2 = k * C 2 2
    rfl

theorem adjugate_eq_det_smul_inverse {n : Nat} (A : Matrix (Fin n) (Fin n) K) (h : A.det ≠ 0) :
    A.adjugate = A.det • inverse A := by
  rw [inverse, smul_smul, mul_inv_cancel₀ h, one_smul]

theorem conicDisc_smul (k : K) (c : Vector6d K) : conicDisc (k • c) = k ^ 2 * conicDisc c := by
  simp only [conicDisc, Pi.smul_apply, smul_eq_mul]
  ring

theorem SE3Quat.to_homogeneous_matrix_mul (A B : SE3Quat K) :
    (A * B).to_homogeneous_matrix = A.to_homogeneous_matrix * B.to_homogeneous_matrix := by
  ext i j
  simp only [SE3Quat.to_homogeneous_matrix, SE3Quat.mul_R, SE3Quat.mul_t, Matrix.mul_apply,
    Fin.sum_univ_four, Fin.sum_univ_three, Pi.add_apply, Matrix.mulVec, Matrix.dotProduct]
  fin_cases i <;> fin_cases j <;> dsimp [Matrix.vecHead, Matrix.vecTail] <;> ring

theorem SE3Quat.to_homogeneous_matrix_identity :
    (SE3Quat.identity : SE3Quat K).to_homogeneous_matrix = 1 := by
  ext i j
  simp only [SE3Quat.to_homogeneous_matrix, SE3Quat.identity, Matrix.one_fin_three]
  fin_cases i <;> fin_cases j <;> simp [Matrix.one_apply, Matrix.vecHead, Matrix.vecTail]

theorem SE3Quat.mul_inverse_self (T : SE3Quat K) (hT : T.R.transpose * T.R = 1) :
    T * T.inverse = SE3Quat.identity := by
  have h' : T.R * T.R.transpose = 1 := Matrix.mul_eq_one_comm.1 hT
  ext1
  · simpa [SE3Quat.mul_R, SE3Quat.inverse, SE3Quat.identity] using h'
  · simp [SE3Quat.mul_t, SE3Quat.inverse, SE3Quat.identity, Matrix.mulVec_neg,
      Matrix.mulVec_mulVec, h']

theorem SE3Quat.det_to_homogeneous_matrix (T : SE3Quat K) :
    T.to_homogeneous_matrix.det = T.R.det := by
  have hsub : T.to_homogeneous_matrix.submatrix Fin.castSucc Fin.castSucc = T.R := by
    ext i j; fin_cases i <;> fin_cases j <;> rfl
  have h0 : ∀ j : Fin 3, T.to_homogeneous_matrix (Fin.last 3) (Fin.castSucc j) = 0 := by
    intro j; fin_cases j <;> rfl
  have h1 : T.to_homogeneous_matrix (Fin.last 3) (Fin.last 3) = 1 := rfl
  rw [Matrix.det_succ_row _ (Fin.last 3), Fin.sum_univ_castSucc]
  simp only [h0, h1, mul_zero, zero_mul, Finset.sum_const_zero, zero_add, Fin.succAbove_last,
    hsub]
  norm_num

/-- Two increasing triples with the same monic cubic are equal. -/
theorem sorted_triple_unique (a b : Fin 3 → K)
    (ha : a 0 ≤ a 1 ∧ a 1 ≤ a 2) (hb : b 0 ≤ b 1 ∧ b 1 ≤ b 2)
    (h : ∀ x : K, (x - a 0) * (x - a 1) * (x - a 2) = (x - b 0) * (x - b 1) * (x - b 2)) :
    a = b := by
  -- coefficients
  have e0 := h 0
  have e1 := h 1
  have e2 := h (-1)
  have s1 : a 0 + a 1 + a 2 = b 0 + b 1 + b 2 := by linear_combination (-1/2 : K) * e1 - (1/2 : K) * e2 + e0
  have s3 : a 0 * a 1 * a 2 = b 0 * b 1 * b 2 := by linear_combination (-1 : K) * e0
  have s2 : a 0 * a 1 + a 0 * a 2 + a 1 * a 2 = b 0 * b 1 + b 0 * b 2 + b 1 * b 2 := by
    linear_combination (1/2 : K) * e1 - (1/2 : K) * e2
  -- the largest entries agree
  have top : a 2 = b 2 := by
    apply le_antisymm
    · have := h (a 2)
      rw [sub_self, mul_zero] at this
      rcases mul_eq_zero.1 this.symm with h' | h'
      · rcases mul_eq_zero.1 h' with h'' | h''
        · linarith [sub_eq_zero.1 h'', hb.1, hb.2]
        · linarith [sub_eq_zero.1 h'', hb.2]
      · linarith [sub_eq_zero.1 h']
    · have := h (b 2)
      rw [sub_self, mul_zero] at this
      rcases mul_eq_zero.1 this with h' | h'
      · rcases mul_eq_zero.1 h' with h'' | h''
        · linarith [sub_eq_zero.1 h'', ha.1, ha.2]
        · linarith [sub_eq_zero.1 h'', ha.2]
      · linarith [sub_eq_zero.1 h']
  have t1 : a 0 + a 1 = b 0 + b 1 := by linarith
  have t2 : a 0 * a 1 = b 0 * b 1 := by
    have : a 0 * a 1 + a 2 * (a 0 + a 1) = b 0 * b 1 + b 2 * (b 0 + b 1) := by
      linear_combination s2
    rw [top, t1] at this
    linarith
  have d : (a 1 - a 0) ^ 2 = (b 1 - b 0) ^ 2 := by
    linear_combination (a 0 + a 1 + b 0 + b 1) * t1 - 4 * t2
  have d' : a 1 - a 0 = b 1 - b 0 := by
    have h1 : 0 ≤ a 1 - a 0 := sub_nonneg.2 ha.1
    have h2 : 0 ≤ b 1 - b 0 := sub_nonneg.2 hb.1
    exact (pow_left_inj₀ h1 h2 (by norm_num)).1 d
  ext i
  fin_cases i
  · show a 0 = b 0
    linarith
  · show a 1 = b 1
    linarith
  · exact top

theorem inverse_eq_of_mul_eq_one {n : Nat} (A W : Matrix (Fin (n + 1)) (Fin (n + 1)) K)
    (h : A * W = 1) : inverse A = W := by
  have hdet : A.det ≠ 0 := by
    intro h0
    have := congrArg Matrix.det h
    rw [Matrix.det_mul, h0, zero_mul, Matrix.det_one] at this
    exact zero_ne_one this
  have h1 : A * inverse A = 1 := (mul_inverse_iff A).1 hdet
  have h2 : W * A = 1 := Matrix.mul_eq_one_comm.1 h
  calc inverse A = (W * A) * inverse A := by rw [h2, Matrix.one_mul]
    _ = W * (A * inverse A) := Matrix.mul_assoc _ _ _
    _ = W := by rw [h1, Matrix.mul_one]

omit [LinearOrderedField K] in
theorem Quadric.assemble_upperTriangle (Q : Matrix4d K) (h : Q.transpose = Q) :
    Quadric.assembleDualQuadric (upperTriangle Q) = Q := by
  have hs : ∀ i j, Q i j = Q j i := fun i j => by
    have := congrFun (congrFun h j) i
    simpa [Matrix.transpose_apply] using this
  ext i j
  fin_cases i <;> fin_cases j <;> first | rfl | exact hs _ _

theorem Quadric.fromVector10d_scale (L : Libm K) (E : EigenLib K) (v : Vector10d K) :
    (Quadric.fromVector10d L E v).scale
      = fun i => L.sqrt |(-((Quadric.rawQuadric L v).det / (Quadric.quadric33 L v).det))
          * (E.eigenvalues (Quadric.quadric33 L v) i)⁻¹| := by
  simp only [Quadric.fromVector10d, Quadric.quadric33, Quadric.rawQuadric,
    Quadric.assembleDualQuadric]

theorem det_conj_diagonal (R : Matrix3d K) (hR : R.transpose * R = 1) (d : Fin 3 → K) (x : K) :
    (Matrix.diagonal (fun _ : Fin 3 => x) - R * Matrix.diagonal d * R.transpose).det
      = (x - d 0) * (x - d 1) * (x - d 2) := by
  have hR' : R * R.transpose = 1 := Matrix.mul_eq_one_comm.1 hR
  have e : Matrix.diagonal (fun _ : Fin 3 => x) - R * Matrix.diagonal d * R.transpose
      = R * Matrix.diagonal (fun i => x - d i) * R.transpose := by
    have hx : Matrix.diagonal (fun _ : Fin 3 => x) = R * Matrix.diagonal (fun _ : Fin 3 => x) * R.transpose := by
      rw [← Matrix.smul_one_eq_diagonal, Matrix.mul_smul, Matrix.mul_one, Matrix.smul_mul, hR']
    have hd : Matrix.diagonal (fun i => x - d i) = Matrix.diagonal (fun _ : Fin 3 => x) - Matrix.diagonal d := by
      rw [Matrix.diagonal_sub]
    rw [hd, Matrix.mul_sub, Matrix.sub_mul, ← hx]
  have hdet : R.det * R.transpose.det = 1 := by
    rw [← Matrix.det_mul, hR', Matrix.det_one]
  rw [e, Matrix.det_mul, Matrix.det_mul, Matrix.det_diagonal, Fin.prod_univ_three]
  linear_combination ((x - d 0) * (x - d 1) * (x - d 2)) * hdet

/-- The inverse of the dual quadric of a rigid pose with non-zero semi-axes. -/
theorem Quadric.inverse_toSymMat (q : Quadric K) (hR : q.pose.R.transpose * q.pose.R = 1)
    (hs : ∀ i, q.scale i ≠ 0) :
    inverse q.toSymMat
      = q.pose.inverse.to_homogeneous_matrix.transpose
          * Matrix.diagonal ![(q.scale 0 ^ 2)⁻¹, (q.scale 1 ^ 2)⁻¹, (q.scale 2 ^ 2)⁻¹, -1]
          * q.pose.inverse.to_homogeneous_matrix := by
  apply inverse_eq_of_mul_eq_one
  have h1 : q.pose.inverse.to_homogeneous_matrix * q.pose.to_homogeneous_matrix = 1 := by
    rw [← SE3Quat.to_homogeneous_matrix_mul, SE3Quat.inverse_mul_self _ hR,
      SE3Quat.to_homogeneous_matrix_identity]
  have h2 : q.pose.to_homogeneous_matrix * q.pose.inverse.to_homogeneous_matrix = 1 := by
    rw [← SE3Quat.to_homogeneous_matrix_mul, SE3Quat.mul_inverse_self _ hR,
      SE3Quat.to_homogeneous_matrix_identity]
  have h3 : q.pose.to_homogeneous_matrix.transpose
      * q.pose.inverse.to_homogeneous_matrix.transpose = 1 := by
    rw [← Matrix.transpose_mul, h1, Matrix.transpose_one]
  have h4 : Matrix.diagonal ![q.scale 0 ^ 2, q.scale 1 ^ 2, q.scale 2 ^ 2, -1]
      * Matrix.diagonal ![(q.scale 0 ^ 2)⁻¹, (q.scale 1 ^ 2)⁻¹, (q.scale 2 ^ 2)⁻¹, -1]
      = (1 : Matrix4d K) := by
    have hf : (fun i => (![q.scale 0 ^ 2, q.scale 1 ^ 2, q.scale 2 ^ 2, -1] : Fin 4 → K) i
        * (![(q.scale 0 ^ 2)⁻¹, (q.scale 1 ^ 2)⁻¹, (q.scale 2 ^ 2)⁻¹, -1] : Fin 4 → K) i)
        = fun _ => (1 : K) := by
      funext i
      fin_cases i
      · exact mul_inv_cancel₀ (pow_ne_zero 2 (hs 0))
      · exact mul_inv_cancel₀ (pow_ne_zero 2 (hs 1))
      · exact mul_inv_cancel₀ (pow_ne_zero 2 (hs 2))
      · show (-1 : K) * -1 = 1
        norm_num
    rw [Matrix.diagonal_mul_diagonal, hf, Matrix.diagonal_one]
  show q.pose.to_homogeneous_matrix
      * Matrix.diagonal ![q.scale 0 ^ 2, q.scale 1 ^ 2, q.scale 2 ^ 2, -1]
      * q.pose.to_homogeneous_matrix.transpose * _ = 1
  calc q.pose.to_homogeneous_matrix
        * Matrix.diagonal ![q.scale 0 ^ 2, q.scale 1 ^ 2, q.scale 2 ^ 2, -1]
        * q.pose.to_homogeneous_matrix.transpose
        * (q.pose.inverse.to_homogeneous_matrix.transpose
          * Matrix.diagonal ![(q.scale 0 ^ 2)⁻¹, (q.scale 1 ^ 2)⁻¹, (q.scale 2 ^ 2)⁻¹, -1]
          * q.pose.inverse.to_homogeneous_matrix)
      = q.pose.to_homogeneous_matrix
        * (Matrix.diagonal ![q.scale 0 ^ 2, q.scale 1 ^ 2, q.scale 2 ^ 2, -1]
          * ((q.pose.to_homogeneous_matrix.transpose
              * q.pose.inverse.to_homogeneous_matrix.transpose)
            * Matrix.diagonal ![(q.scale 0 ^ 2)⁻¹, (q.scale 1 ^ 2)⁻¹, (q.scale 2 ^ 2)⁻¹, -1]))
        * q.pose.inverse.to_homogeneous_matrix := by
        simp only [Matrix.mul_assoc]
    _ = 1 := by
        rw [h3, Matrix.one_mul, h4, Matrix.mul_one, h2]

/-- The top-left block of that inverse is `R · diag(1/a², 1/b², 1/c²) · Rᵀ`. -/
theorem Quadric.inverse_toSymMat_block (q : Quadric K) :
    (q.pose.inverse.to_homogeneous_matrix.transpose
          * Matrix.diagonal ![(q.scale 0 ^ 2)⁻¹, (q.scale 1 ^ 2)⁻¹, (q.scale 2 ^ 2)⁻¹, -1]
          * q.pose.inverse.to_homogeneous_matrix).submatrix Fin.castSucc Fin.castSucc
      = q.pose.R * Matrix.diagonal (fun i => (q.scale i ^ 2)⁻¹) * q.pose.R.transpose := by
  ext i j
  simp only [Matrix.submatrix_apply, Matrix.mul_apply, Fin.sum_univ_four, Fin.sum_univ_three,
    Matrix.transpose_apply, Matrix.diagonal_apply, SE3Quat.to_homogeneous_matrix,
    SE3Quat.inverse]
  fin_cases i <;> fin_cases j <;>
    simp [Matrix.vecHead, Matrix.vecTail, castSucc_two3]


/-- For a rigid pose and non-zero semi-axes: the determinant of the dual quadric, the block
`quadric_33` and the determinant ratio of `fromVector10d` on the upper triangle of toSymMat. -/
theorem Quadric.decomposition_facts (L : Libm K) (q : Quadric K) (hq : q.pose.IsRigid)
    (hs : ∀ i, q.scale i ≠ 0) :
    q.toSymMat.det = -(q.scale 0 * q.scale 1 * q.scale 2) ^ 2
    ∧ Quadric.quadric33 L (upperTriangle q.toSymMat)
        = q.pose.R * Matrix.diagonal (fun i => L.cbrt q.toSymMat.det * (q.scale i ^ 2)⁻¹)
            * q.pose.R.transpose
    ∧ (L.cbrt q.toSymMat.det ≠ 0 →
        -((Quadric.rawQuadric L (upperTriangle q.toSymMat)).det
            / (Quadric.quadric33 L (upperTriangle q.toSymMat)).det)
          = L.cbrt q.toSymMat.det) := by
  obtain ⟨hR, hdetR⟩ := hq
  have hp : q.scale 0 * q.scale 1 * q.scale 2 ≠ 0 :=
    mul_ne_zero (mul_ne_zero (hs 0) (hs 1)) (hs 2)
  have h0 := hs 0
  have h1 := hs 1
  have h2 := hs 2
  have hasm : Quadric.assembleDualQuadric (upperTriangle q.toSymMat) = q.toSymMat :=
    Quadric.assemble_upperTriangle _ (Matrix.ext fun i j => q.toSymMat_symm_apply i j)
  have hdetQ : q.toSymMat.det = -(q.scale 0 * q.scale 1 * q.scale 2) ^ 2 := by
    show (q.pose.to_homogeneous_matrix
      * Matrix.diagonal ![q.scale 0 ^ 2, q.scale 1 ^ 2, q.scale 2 ^ 2, -1]
      * q.pose.to_homogeneous_matrix.transpose).det = _
    rw [Matrix.det_mul, Matrix.det_mul, Matrix.det_transpose, Matrix.det_diagonal,
      SE3Quat.det_to_homogeneous_matrix, hdetR, Fin.prod_univ_four]
    show 1 * (q.scale 0 ^ 2 * q.scale 1 ^ 2 * q.scale 2 ^ 2 * -1) * 1 = _
    ring
  have hinv := Quadric.inverse_toSymMat q hR hs
  have hblock := Quadric.inverse_toSymMat_block q
  have hq33 : Quadric.quadric33 L (upperTriangle q.toSymMat)
      = q.pose.R * Matrix.diagonal (fun i => L.cbrt q.toSymMat.det * (q.scale i ^ 2)⁻¹)
          * q.pose.R.transpose := by
    have e : Quadric.quadric33 L (upperTriangle q.toSymMat)
        = L.cbrt q.toSymMat.det • (inverse q.toSymMat).submatrix Fin.castSucc Fin.castSucc := by
      rw [Quadric.quadric33, Quadric.rawQuadric, hasm]
      rfl
    rw [e, hinv, hblock]
    have hd : Matrix.diagonal (fun i => L.cbrt q.toSymMat.det * (q.scale i ^ 2)⁻¹)
        = L.cbrt q.toSymMat.det • Matrix.diagonal (fun i => (q.scale i ^ 2)⁻¹) := by
      ext i j
      by_cases h : i = j
      · subst h; simp
      · simp [h]
    rw [hd, Matrix.mul_smul, Matrix.smul_mul]
  refine ⟨hdetQ, hq33, ?_⟩
  intro hk
  have hraw : (Quadric.rawQuadric L (upperTriangle q.toSymMat)).det
      = L.cbrt q.toSymMat.det ^ 4 * (q.toSymMat.det)⁻¹ := by
    have hQ1 : q.toSymMat * inverse q.toSymMat = 1 := by
      apply (mul_inverse_iff _).1
      rw [hdetQ]
      exact neg_ne_zero.2 (pow_ne_zero 2 hp)
    have hdi : q.toSymMat.det * (inverse q.toSymMat).det = 1 := by
      rw [← Matrix.det_mul, hQ1, Matrix.det_one]
    rw [Quadric.rawQuadric, hasm, Matrix.det_smul, Fintype.card_fin]
    congr 1
    exact eq_inv_of_mul_eq_one_right hdi
  have hdet33 : (Quadric.quadric33 L (upperTriangle q.toSymMat)).det
      = L.cbrt q.toSymMat.det ^ 3 * ((q.scale 0 * q.scale 1 * q.scale 2) ^ 2)⁻¹ := by
    rw [hq33, Matrix.det_mul, Matrix.det_mul, Matrix.det_transpose, Matrix.det_diagonal, hdetR,
      Fin.prod_univ_three]
    field_simp
    ring
  have hp2 : (q.scale 0 * q.scale 1 * q.scale 2) ^ 2 ≠ 0 := pow_ne_zero 2 hp
  rw [hraw, hdet33]
  generalize L.cbrt q.toSymMat.det = κ at hk ⊢
  rw [hdetQ]
  generalize (q.scale 0 * q.scale 1 * q.scale 2) ^ 2 = P at hp2 ⊢
  field_simp
  ring

theorem Quadric.assembleDualQuadric_smul (k : K) (v : Vector10d K) :
    Quadric.assembleDualQuadric (k • v) = k • Quadric.assembleDualQuadric v := by
  ext i j
  fin_cases i <;> fin_cases j <;> rfl

theorem inverse_smul {n : Nat} (k : K) (hk : k ≠ 0) (A : Matrix (Fin (n + 1)) (Fin (n + 1)) K) :
    inverse (k • A) = k⁻¹ • inverse A := by
  rw [inverse, inverse, Matrix.det_smul, Matrix.adjugate_smul, Fintype.card_fin, smul_smul,
    smul_smul]
  congr 1
  rw [add_tsub_cancel_right, pow_succ]
  by_cases hd : A.det = 0
  · simp [hd]
  · have hkn : k ^ n ≠ 0 := pow_ne_zero n hk
    field_simp
    ring

/-- The eigenvalues of `c · M` for c > 0 under the solver's contract. -/
theorem EigenLib.eigenvalues_smul (E : EigenLib K) (M : Matrix3d K) (c : K) (hc : 0 < c)
    (hE : E.SortedSpectrum M) (hE' : E.SortedSpectrum (c • M)) :
    E.eigenvalues (c • M) = fun i => c * E.eigenvalues M i := by
  obtain ⟨hs, hch⟩ := hE
  obtain ⟨hs', hch'⟩ := hE'
  apply sorted_triple_unique _ _ hs'
    ⟨mul_le_mul_of_nonneg_left hs.1 hc.le, mul_le_mul_of_nonneg_left hs.2 hc.le⟩
  intro x
  rw [← hch' x]
  have e : Matrix.diagonal (fun _ : Fin 3 => x) - c • M
      = c • (Matrix.diagonal (fun _ : Fin 3 => x / c) - M) := by
    rw [smul_sub]
    congr 1
    ext i j
    by_cases h : i = j
    · subst h
      simp [mul_div_cancel₀ _ hc.ne']
    · simp [h]
  rw [e, Matrix.det_smul, Fintype.card_fin, hch (x / c)]
  field_simp
  ring

/-- How the normalised matrix of `fromVector10d` depends on the scale of its input, given how
the cube root of the determinant does. -/
theorem Quadric.rawQuadric_smul_of (L : Libm K) (v : Vector10d K) (k c : K) (hk : k ≠ 0)
    (hc : L.cbrt (k ^ 4 * (Quadric.assembleDualQuadric v).det)
        = k * c * L.cbrt (Quadric.assembleDualQuadric v).det) :
    Quadric.rawQuadric L (k • v) = c • Quadric.rawQuadric L v := by
  rw [Quadric.rawQuadric, Quadric.rawQuadric, Quadric.assembleDualQuadric_smul, Matrix.det_smul,
    Fintype.card_fin, inverse_smul k hk, hc, smul_smul, smul_smul]
  congr 1
  field_simp
  ring

/-- The semi-axes computed by `fromVector10d` do not change when the normalised matrix is
multiplied by a positive factor. -/
theorem Quadric.fromVector10d_scale_of_raw_smul (L : Libm K) (E : EigenLib K)
    (v w : Vector10d K) (c : K) (hc : 0 < c)
    (hraw : Quadric.rawQuadric L w = c • Quadric.rawQuadric L v)
    (hE : E.SortedSpectrum (Quadric.quadric33 L v))
    (hE' : E.SortedSpectrum (Quadric.quadric33 L w)) :
    (Quadric.fromVector10d L E w).scale = (Quadric.fromVector10d L E v).scale := by
  have h33 : Quadric.quadric33 L w = c • Quadric.quadric33 L v := by
    rw [Quadric.quadric33, hraw]
    rfl
  rw [h33] at hE'
  rw [Quadric.fromVector10d_scale, Quadric.fromVector10d_scale, h33, hraw,
    EigenLib.eigenvalues_smul E _ c hc hE hE', Matrix.det_smul, Matrix.det_smul,
    Fintype.card_fin, Fintype.card_fin]
  funext i
  congr 2
  have hc0 := hc.ne'
  by_cases hd : (Quadric.quadric33 L v).det = 0
  · simp [hd]
  by_cases hl : E.eigenvalues (Quadric.quadric33 L v) i = 0
  · simp [hl]
  field_simp
  ring

theorem diagonalEigen_sortedSpectrum (d : Fin 3 → K) (h : d 0 ≤ d 1 ∧ d 1 ≤ d 2) :
    (diagonalEigen : EigenLib K).SortedSpectrum (Matrix.diagonal d) := by
  have e : ∀ i, (diagonalEigen : EigenLib K).eigenvalues (Matrix.diagonal d) i = d i := by
    intro i
    fin_cases i <;> simp [diagonalEigen]
  refine ⟨by rw [e, e, e]; exact h, fun x => ?_⟩
  rw [e, e, e]
  have := det_conj_diagonal (1 : Matrix3d K) (by simp) d x
  simpa using this

theorem offAxisEllipsoid_rigid : (offAxisEllipsoid : Quadric K).pose.IsRigid :=
  ⟨by simp [offAxisEllipsoid], by simp [offAxisEllipsoid]⟩

theorem offAxisEllipsoid_scale_pos (i : Fin 3) : 0 < (offAxisEllipsoid : Quadric K).scale i := by
  fin_cases i <;> dsimp [offAxisEllipsoid, Matrix.vecHead, Matrix.vecTail] <;> norm_num

theorem Quadric.tangentRect_checked_eq (L : Libm K) (c : Vector6d K) (hdisc : conicDisc c ≠ 0)
    (hx : 0 ≤ radicandX c) (hy : 0 ≤ radicandY c) :
    Quadric.tangentRect_checked L c = some (Quadric.tangentRect L c) := by
  have hd : 2 * (c 1 ^ 2 - 4 * c 2 * c 0) ≠ 0 := by
    intro h
    apply hdisc
    rw [conicDisc]
    linear_combination (1 / 2 : K) * h
  have hx' : ¬ (2 * c 1 * c 4 - 4 * c 2 * c 3) ^ 2 -
      4 * (c 1 ^ 2 - 4 * c 0 * c 2) * (c 4 ^ 2 - 4 * c 2 * c 5) < 0 := not_lt.2 hx
  have hy' : ¬ (2 * c 1 * c 3 - 4 * c 0 * c 4) ^ 2 -
      4 * (c 1 ^ 2 - 4 * c 0 * c 2) * (c 3 ^ 2 - 4 * c 0 * c 5) < 0 := not_lt.2 hy
  simp only [Quadric.tangentRect_checked, checkedSqrt, checkedDiv, if_neg hx', if_neg hy',
    if_neg hd, Option.bind_eq_bind, Option.some_bind, Option.pure_def, Quadric.tangentRect]

theorem Quadric.tangentRect_checked_of_disc_zero (L : Libm K) (c : Vector6d K)
    (hdisc : conicDisc c = 0) : Quadric.tangentRect_checked L c = none := by
  have hd : 2 * (c 1 ^ 2 - 4 * c 2 * c 0) = 0 := by
    rw [conicDisc] at hdisc
    linear_combination 2 * hdisc
  simp only [Quadric.tangentRect_checked, checkedDiv, hd, if_true, Option.bind_eq_bind]
  cases checkedSqrt L ((2 * c 1 * c 3 - 4 * c 0 * c 4) ^ 2 -
      4 * (c 1 ^ 2 - 4 * c 0 * c 2) * (c 3 ^ 2 - 4 * c 0 * c 5)) <;> rfl

theorem Quadric.projectOntoImageBbox_checked_eq (L : Libm K) (q : Quadric K)
    (campose_wc : SE3Quat K) (Kalib : Matrix3d K) (hdef : q.ProjectionDefined campose_wc Kalib) :
    q.projectOntoImageBbox_checked L campose_wc Kalib
      = some (q.projectOntoImageBbox L campose_wc Kalib) := by
  obtain ⟨hdet, hdisc, hx, hy⟩ := hdef
  simp only [Quadric.projectOntoImageBbox_checked, Quadric.projectOntoImageRect_checked,
    Quadric.toConic_checked, if_neg hdet, Option.bind_eq_bind, Option.some_bind,
    Quadric.tangentRect_checked_eq L _ hdisc hx hy, Option.pure_def]
  rfl

theorem touchingPrincipalPlane_coefficients :
    ((touchingPrincipalPlane : Quadric K).dualConic SE3Quat.identity 1).det = -1
    ∧ Quadric.conicCoefficients ((touchingPrincipalPlane : Quadric K).toConic SE3Quat.identity 1)
        = ![0, 0, 1, -2, 0, 0] := by
  have h00 : (touchingPrincipalPlane : Quadric K).dualConic SE3Quat.identity 1 0 0 = 0 := by
    rw [touchingPrincipalPlane, Quadric.dualConic_axis]
    simp only [Matrix.one_fin_three]
    dsimp [Matrix.vecHead, Matrix.vecTail]
    norm_num
  have h01 : (touchingPrincipalPlane : Quadric K).dualConic SE3Quat.identity 1 0 1 = 0 := by
    rw [touchingPrincipalPlane, Quadric.dualConic_axis]
    simp only [Matrix.one_fin_three]
    dsimp [Matrix.vecHead, Matrix.vecTail]
    norm_num
  have h02 : (touchingPrincipalPlane : Quadric K).dualConic SE3Quat.identity 1 0 2 = -1 := by
    rw [touchingPrincipalPlane, Quadric.dualConic_axis]
    simp only [Matrix.one_fin_three]
    dsimp [Matrix.vecHead, Matrix.vecTail]
    norm_num
  have h11 : (touchingPrincipalPlane : Quadric K).dualConic SE3Quat.identity 1 1 1 = 1 := by
    rw [touchingPrincipalPlane, Quadric.dualConic_axis]
    simp only [Matrix.one_fin_three]
    dsimp [Matrix.vecHead, Matrix.vecTail]
    norm_num
  have h12 : (touchingPrincipalPlane : Quadric K).dualConic SE3Quat.identity 1 1 2 = 0 := by
    rw [touchingPrincipalPlane, Quadric.dualConic_axis]
    simp only [Matrix.one_fin_three]
    dsimp [Matrix.vecHead, Matrix.vecTail]
    norm_num
  have h22 : (touchingPrincipalPlane : Quadric K).dualConic SE3Quat.identity 1 2 2 = 0 := by
    rw [touchingPrincipalPlane, Quadric.dualConic_axis]
    simp only [Matrix.one_fin_three]
    dsimp [Matrix.vecHead, Matrix.vecTail]
    norm_num
  obtain ⟨hdet, e0, e1, e2, e3, e4, e5⟩ := Quadric.coefficients_of_dualConic
    (touchingPrincipalPlane : Quadric K) SE3Quat.identity 1 _ _ _ _ _ _ (-1)
    h00 h01 h02 h11 h12 h22 (by norm_num)
  refine ⟨hdet, ?_⟩
  ext i
  fin_cases i
  · refine e0.trans ?_
    show _ = (0 : K)
    norm_num
  · refine e1.trans ?_
    show _ = (0 : K)
    norm_num
  · refine e2.trans ?_
    show _ = (1 : K)
    norm_num
  · refine e3.trans ?_
    show _ = (-2 : K)
    norm_num
  · refine e4.trans ?_
    show _ = (0 : K)
    norm_num
  · refine e5.trans ?_
    show _ = (0 : K)
    norm_num

/-- C8 (amended). Residual definition: for every camera pose, quadric, calibration and observed
box for which the projection is defined (P·Q·Pᵀ invertible, B² − 4AC ≠ 0, non-negative
radicands), the projected box and the residual of computeError are numbers, each of the four
error components is the square of the difference between the projected box
(projectOntoImageBbox of the quadric with the camera pose and the calibration) and the
measurement, so every component is non-negative, and it is zero exactly when the projected and
the measured component agree. -/
theorem EdgeSE3QuadricProj.computeError_spec (L : Libm K) (e : EdgeSE3QuadricProj K)
    (SE3Vertex : VertexSE3Expmap K) (quadricVertex : VertexQuadric K)
    (hdef : quadricVertex._estimate.ProjectionDefined SE3Vertex._estimate e.calib) :
    quadricVertex._estimate.projectOntoImageBbox_checked L SE3Vertex._estimate e.calib
        = some (quadricVertex._estimate.projectOntoImageBbox L SE3Vertex._estimate e.calib)
    ∧ e.computeError_checked L SE3Vertex quadricVertex
        = some (e.computeError L SE3Vertex quadricVertex)
    ∧ ∀ i : Fin 4,
        (e.computeError L SE3Vertex quadricVertex)._error i
          = (quadricVertex._estimate.projectOntoImageBbox L SE3Vertex._estimate e.calib i
              - e._measurement i) ^ 2
        ∧ 0 ≤ (e.computeError L SE3Vertex quadricVertex)._error i
        ∧ ((e.computeError L SE3Vertex quadricVertex)._error i = 0
            ↔ quadricVertex._estimate.projectOntoImageBbox L SE3Vertex._estimate e.calib i
                = e._measurement i) := by
  have hb := Quadric.projectOntoImageBbox_checked_eq L _ _ _ hdef
  refine ⟨hb, ?_, fun i => ⟨rfl, sq_nonneg _, ?_⟩⟩
  · simp only [EdgeSE3QuadricProj.computeError_checked, hb, Option.bind_eq_bind,
      Option.some_bind, Option.pure_def]
    rfl
  · show (_ - _) ^ 2 = 0 ↔ _
    rw [sq_eq_zero_iff, sub_eq_zero]

end Theorems

section RealTheorems

theorem quad_minmax (a b c n s den : ℝ) (hn : n = -b) (hden : den = 2 * a) (ha : a ≠ 0)
    (hs : s ^ 2 = b ^ 2 - 4 * a * c) (z : ℝ) :
    a * z ^ 2 + b * z + c
      = a * (z - min ((n + s) / den) ((n - s) / den)) * (z - max ((n + s) / den) ((n - s) / den)) := by
  subst hn hden
  have h2a : (2 * a) ≠ 0 := mul_ne_zero two_ne_zero ha
  rcases le_total ((-b + s) / (2 * a)) ((-b - s) / (2 * a)) with h | h
  · rw [min_eq_left h, max_eq_right h]
    field_simp
    linear_combination a * hs
  · rw [min_eq_right h, max_eq_left h]
    field_simp
    linear_combination a * hs

theorem tangentRect_roots (c : Vector6d ℝ) (hdisc : conicDisc c ≠ 0)
    (hx : 0 ≤ radicandX c) (hy : 0 ≤ radicandY c) :
    Quadric.tangentRect realLibm c 0 ≤ Quadric.tangentRect realLibm c 2
    ∧ Quadric.tangentRect realLibm c 1 ≤ Quadric.tangentRect realLibm c 3
    ∧ (∀ z : ℝ, (c 1 ^ 2 - 4 * c 0 * c 2) * z ^ 2 + (2 * c 1 * c 4 - 4 * c 2 * c 3) * z
          + (c 4 ^ 2 - 4 * c 2 * c 5)
        = (c 1 ^ 2 - 4 * c 0 * c 2) * (z - Quadric.tangentRect realLibm c 0)
            * (z - Quadric.tangentRect realLibm c 2))
    ∧ (∀ z : ℝ, (c 1 ^ 2 - 4 * c 0 * c 2) * z ^ 2 + (2 * c 1 * c 3 - 4 * c 0 * c 4) * z
          + (c 3 ^ 2 - 4 * c 0 * c 5)
        = (c 1 ^ 2 - 4 * c 0 * c 2) * (z - Quadric.tangentRect realLibm c 1)
            * (z - Quadric.tangentRect realLibm c 3)) := by
  refine ⟨min_le_max, min_le_max, ?_, ?_⟩
  · intro z
    exact quad_minmax _ _ _ _ (Real.sqrt (radicandX c)) _ (by ring) (by unfold conicDisc; ring) hdisc
      (by rw [Real.sq_sqrt hx]; rfl) z
  · intro z
    exact quad_minmax _ _ _ _ (Real.sqrt (radicandY c)) _ (by ring) (by unfold conicDisc; ring) hdisc
      (by rw [Real.sq_sqrt hy]; rfl) z

theorem between_of_neg (m lo hi z : ℝ) (hm : m < 0) (hle : lo ≤ hi)
    (h : 0 ≤ m * (z - lo) * (z - hi)) : lo ≤ z ∧ z ≤ hi := by
  have hp : (z - lo) * (z - hi) ≤ 0 := by
    by_contra hc
    push_neg at hc
    have := mul_neg_of_neg_of_pos hm hc
    linarith [mul_assoc m (z - lo) (z - hi)]
  constructor
  · by_contra hc
    push_neg at hc
    have : 0 < (z - lo) * (z - hi) := mul_pos_of_neg_of_neg (by linarith) (by linarith)
    linarith
  · by_contra hc
    push_neg at hc
    have : 0 < (z - lo) * (z - hi) := mul_pos (by linarith) (by linarith)
    linarith

/-- With the projection defined, the two x values and the two y values of the rectangle are
the roots of the dual conic's tangent-line quadratics. -/
theorem Quadric.rect_factor (q : Quadric ℝ) (cam : SE3Quat ℝ) (calib : Matrix3d ℝ)
    (hd : q.ProjectionDefined cam calib) :
    q.projectOntoImageRect realLibm cam calib 0 ≤ q.projectOntoImageRect realLibm cam calib 2
    ∧ q.projectOntoImageRect realLibm cam calib 1 ≤ q.projectOntoImageRect realLibm cam calib 3
    ∧ (∀ z : ℝ, q.dualConic cam calib 2 2 * z ^ 2 - 2 * q.dualConic cam calib 0 2 * z
          + q.dualConic cam calib 0 0
        = q.dualConic cam calib 2 2 * (z - q.projectOntoImageRect realLibm cam calib 0)
            * (z - q.projectOntoImageRect realLibm cam calib 2))
    ∧ (∀ z : ℝ, q.dualConic cam calib 2 2 * z ^ 2 - 2 * q.dualConic cam calib 1 2 * z
          + q.dualConic cam calib 1 1
        = q.dualConic cam calib 2 2 * (z - q.projectOntoImageRect realLibm cam calib 1)
            * (z - q.projectOntoImageRect realLibm cam calib 3)) := by
  obtain ⟨hdet, hdisc, hx, hy⟩ := hd
  obtain ⟨hdiscEq, hqx, hqy⟩ := conic_quadratics (q.dualConic cam calib)
    (q.dualConic_symm cam calib 1 0) (q.dualConic_symm cam calib 2 0)
    (q.dualConic_symm cam calib 2 1) hdet _ rfl
  obtain ⟨hle0, hle1, hrx, hry⟩ := tangentRect_roots _ hdisc hx hy
  rw [← Quadric.toConic_eq] at hdiscEq hqx hqy
  rw [Quadric.projectOntoImageRect_eq]
  refine ⟨hle0, hle1, ?_, ?_⟩
  · intro z
    have h1 := hqx z
    have h2 := hrx z
    rw [h1] at h2
    have h3 : Quadric.conicCoefficients (q.toConic cam calib) 1 ^ 2
        - 4 * Quadric.conicCoefficients (q.toConic cam calib) 0 * Quadric.conicCoefficients (q.toConic cam calib) 2
        = -4 * q.dualConic cam calib 2 2 / (q.dualConic cam calib).det := hdiscEq
    rw [h3] at h2
    have h4 : (-4 / (q.dualConic cam calib).det) ≠ 0 := div_ne_zero (by norm_num) hdet
    apply mul_left_cancel₀ h4
    rw [h2]
    ring
  · intro z
    have h1 := hqy z
    have h2 := hry z
    rw [h1] at h2
    have h3 : Quadric.conicCoefficients (q.toConic cam calib) 1 ^ 2
        - 4 * Quadric.conicCoefficients (q.toConic cam calib) 0 * Quadric.conicCoefficients (q.toConic cam calib) 2
        = -4 * q.dualConic cam calib 2 2 / (q.dualConic cam calib).det := hdiscEq
    rw [h3] at h2
    have h4 : (-4 / (q.dualConic cam calib).det) ≠ 0 := div_ne_zero (by norm_num) hdet
    apply mul_left_cancel₀ h4
    rw [h2]
    ring

theorem Quadric.dual_quadratic_mono (pose cam : SE3Quat ℝ) (calib : Matrix3d ℝ)
    (s s' : Vector3d ℝ) (hs : ∀ i, 0 ≤ s i) (hss : ∀ i, s i ≤ s' i) (i : Fin 3) (z : ℝ) :
    (⟨pose, s⟩ : Quadric ℝ).dualConic cam calib 2 2 * z ^ 2
        - 2 * (⟨pose, s⟩ : Quadric ℝ).dualConic cam calib i 2 * z
        + (⟨pose, s⟩ : Quadric ℝ).dualConic cam calib i i
      ≤ (⟨pose, s'⟩ : Quadric ℝ).dualConic cam calib 2 2 * z ^ 2
        - 2 * (⟨pose, s'⟩ : Quadric ℝ).dualConic cam calib i 2 * z
        + (⟨pose, s'⟩ : Quadric ℝ).dualConic cam calib i i := by
  have hk : ∀ k, s k ^ 2 ≤ s' k ^ 2 := fun k => pow_le_pow_left₀ (hs k) (hss k) 2
  simp only [Quadric.dualConic_apply]
  have h0 := mul_nonneg (sub_nonneg.2 (hk 0))
    (sq_nonneg (projPose pose cam calib i 0 - z * projPose pose cam calib 2 0))
  have h1 := mul_nonneg (sub_nonneg.2 (hk 1))
    (sq_nonneg (projPose pose cam calib i 1 - z * projPose pose cam calib 2 1))
  have h2 := mul_nonneg (sub_nonneg.2 (hk 2))
    (sq_nonneg (projPose pose cam calib i 2 - z * projPose pose cam calib 2 2))
  linarith

/-- The rectangle computed from six coefficients whose radicands are known squares. -/
theorem Quadric.tangentRect_eval (c : Vector6d ℝ) (A B C D E F vx vy : ℝ)
    (h0 : c 0 = A) (h1 : c 1 = B) (h2 : c 2 = C) (h3 : c 3 = D) (h4 : c 4 = E) (h5 : c 5 = F)
    (hvx : 0 ≤ vx) (hvy : 0 ≤ vy)
    (hx : (2 * B * E - 4 * C * D) ^ 2 - 4 * (B ^ 2 - 4 * A * C) * (E ^ 2 - 4 * C * F) = vx ^ 2)
    (hy : (2 * B * D - 4 * A * E) ^ 2 - 4 * (B ^ 2 - 4 * A * C) * (D ^ 2 - 4 * A * F) = vy ^ 2) :
    Quadric.tangentRect realLibm c
      = ![min ((4 * D * C - 2 * B * E + vx) / (2 * (B ^ 2 - 4 * C * A)))
            ((4 * D * C - 2 * B * E - vx) / (2 * (B ^ 2 - 4 * C * A))),
          min ((4 * E * A - 2 * B * D + vy) / (2 * (B ^ 2 - 4 * C * A)))
            ((4 * E * A - 2 * B * D - vy) / (2 * (B ^ 2 - 4 * C * A))),
          max ((4 * D * C - 2 * B * E + vx) / (2 * (B ^ 2 - 4 * C * A)))
            ((4 * D * C - 2 * B * E - vx) / (2 * (B ^ 2 - 4 * C * A))),
          max ((4 * E * A - 2 * B * D + vy) / (2 * (B ^ 2 - 4 * C * A)))
            ((4 * E * A - 2 * B * D - vy) / (2 * (B ^ 2 - 4 * C * A)))] := by
  have sx : Real.sqrt ((2 * B * E - 4 * C * D) ^ 2
      - 4 * (B ^ 2 - 4 * A * C) * (E ^ 2 - 4 * C * F)) = vx := by
    rw [hx, Real.sqrt_sq hvx]
  have sy : Real.sqrt ((2 * B * D - 4 * A * E) ^ 2
      - 4 * (B ^ 2 - 4 * A * C) * (D ^ 2 - 4 * A * F)) = vy := by
    rw [hy, Real.sqrt_sq hvy]
  simp only [Quadric.tangentRect, realLibm, h0, h1, h2, h3, h4, h5, sx, sy]

theorem besideCamera_rect (c : ℝ) (hc : 0 < c) :
    (besideCamera c).ProjectionDefined SE3Quat.identity 1
    ∧ (besideCamera c).projectOntoImageRect realLibm SE3Quat.identity 1
        = ![-(4 / c), -(4 / c), 4 / c, 4 / c] := by
  have hc0 : c ≠ 0 := hc.ne'
  have h00 : (besideCamera c).dualConic SE3Quat.identity 1 0 0 = -16 := by
    rw [besideCamera, Quadric.dualConic_axis]
    simp only [Matrix.one_fin_three]
    dsimp [Matrix.vecHead, Matrix.vecTail]
    norm_num
  have h01 : (besideCamera c).dualConic SE3Quat.identity 1 0 1 = -25 := by
    rw [besideCamera, Quadric.dualConic_axis]
    simp only [Matrix.one_fin_three]
    dsimp [Matrix.vecHead, Matrix.vecTail]
    norm_num
  have h02 : (besideCamera c).dualConic SE3Quat.identity 1 0 2 = 0 := by
    rw [besideCamera, Quadric.dualConic_axis]
    simp only [Matrix.one_fin_three]
    dsimp [Matrix.vecHead, Matrix.vecTail]
    norm_num
  have h11 : (besideCamera c).dualConic SE3Quat.identity 1 1 1 = -16 := by
    rw [besideCamera, Quadric.dualConic_axis]
    simp only [Matrix.one_fin_three]
    dsimp [Matrix.vecHead, Matrix.vecTail]
    norm_num
  have h12 : (besideCamera c).dualConic SE3Quat.identity 1 1 2 = 0 := by
    rw [besideCamera, Quadric.dualConic_axis]
    simp only [Matrix.one_fin_three]
    dsimp [Matrix.vecHead, Matrix.vecTail]
    norm_num
  have h22 : (besideCamera c).dualConic SE3Quat.identity 1 2 2 = c ^ 2 := by
    rw [besideCamera, Quadric.dualConic_axis]
    simp only [Matrix.one_fin_three]
    dsimp [Matrix.vecHead, Matrix.vecTail]
    norm_num
  obtain ⟨hdet, e0, e1, e2, e3, e4, e5⟩ := Quadric.coefficients_of_dualConic (besideCamera c)
    SE3Quat.identity 1 (-16) (-25) 0 (-16) 0 (c ^ 2) (-369 * c ^ 2) h00 h01 h02 h11 h12 h22 (by ring)
  have hD : (-369 * c ^ 2) ≠ 0 := by positivity
  have g0 : Quadric.conicCoefficients ((besideCamera c).toConic SE3Quat.identity 1) 0 = 16 / 369 := by
    rw [e0]; field_simp; ring
  have g1 : Quadric.conicCoefficients ((besideCamera c).toConic SE3Quat.identity 1) 1 = -50 / 369 := by
    rw [e1]; field_simp; ring
  have g2 : Quadric.conicCoefficients ((besideCamera c).toConic SE3Quat.identity 1) 2 = 16 / 369 := by
    rw [e2]; field_simp; ring
  have g3 : Quadric.conicCoefficients ((besideCamera c).toConic SE3Quat.identity 1) 3 = 0 := by
    rw [e3]; norm_num
  have g4 : Quadric.conicCoefficients ((besideCamera c).toConic SE3Quat.identity 1) 4 = 0 := by
    rw [e4]; norm_num
  have g5 : Quadric.conicCoefficients ((besideCamera c).toConic SE3Quat.identity 1) 5 = 1 / c ^ 2 := by
    rw [e5]; field_simp; ring
  refine ⟨⟨by rw [hdet]; exact hD, ?_, ?_, ?_⟩, ?_⟩
  · rw [conicDisc, g0, g1, g2]; norm_num
  · rw [radicandX, g0, g1, g2, g3, g4, g5]; norm_num; positivity
  · rw [radicandY, g0, g1, g2, g3, g4, g5]; norm_num; positivity
  · rw [Quadric.projectOntoImageRect_eq,
      Quadric.tangentRect_eval _ _ _ _ _ _ _ (32 / (369 * c)) (32 / (369 * c)) g0 g1 g2 g3 g4 g5
        (by positivity) (by positivity) (by field_simp; ring) (by field_simp; ring)]
    have hpos : 0 < 4 / c := by positivity
    have e1 : (4 * 0 * (16 / 369) - 2 * (-50 / 369) * 0 + 32 / (369 * c))
        / (2 * ((-50 / 369) ^ 2 - 4 * (16 / 369) * (16 / 369))) = 4 / c := by
      field_simp; ring
    have e2 : (4 * 0 * (16 / 369) - 2 * (-50 / 369) * 0 - 32 / (369 * c))
        / (2 * ((-50 / 369) ^ 2 - 4 * (16 / 369) * (16 / 369))) = -(4 / c) := by
      field_simp; ring
    rw [e1, e2, min_eq_right (by linarith), max_eq_left (by linarith)]

theorem unitSphereAhead_rect (fx fy cx cy : ℝ) (hfx : 0 < fx) (hfy : 0 < fy) :
    unitSphereAhead.projectOntoImageRect realLibm SE3Quat.identity (pinhole fx fy cx cy)
      = ![cx - fx / Real.sqrt 24, cy - fy / Real.sqrt 24,
          cx + fx / Real.sqrt 24, cy + fy / Real.sqrt 24] := by
  have hx : fx ≠ 0 := hfx.ne'
  have hy : fy ≠ 0 := hfy.ne'
  have h24 : (0 : ℝ) < Real.sqrt 24 := Real.sqrt_pos.2 (by norm_num)
  have h24sq : Real.sqrt 24 ^ 2 = 24 := Real.sq_sqrt (by norm_num)
  have h00 : unitSphereAhead.dualConic SE3Quat.identity (pinhole fx fy cx cy) 0 0
      = fx ^ 2 - 24 * cx ^ 2 := by
    rw [unitSphereAhead, Quadric.dualConic_axis]
    dsimp [pinhole, Matrix.vecHead, Matrix.vecTail]
    ring
  have h01 : unitSphereAhead.dualConic SE3Quat.identity (pinhole fx fy cx cy) 0 1
      = -24 * cx * cy := by
    rw [unitSphereAhead, Quadric.dualConic_axis]
    dsimp [pinhole, Matrix.vecHead, Matrix.vecTail]
    ring
  have h02 : unitSphereAhead.dualConic SE3Quat.identity (pinhole fx fy cx cy) 0 2
      = -24 * cx := by
    rw [unitSphereAhead, Quadric.dualConic_axis]
    dsimp [pinhole, Matrix.vecHead, Matrix.vecTail]
    ring
  have h11 : unitSphereAhead.dualConic SE3Quat.identity (pinhole fx fy cx cy) 1 1
      = fy ^ 2 - 24 * cy ^ 2 := by
    rw [unitSphereAhead, Quadric.dualConic_axis]
    dsimp [pinhole, Matrix.vecHead, Matrix.vecTail]
    ring
  have h12 : unitSphereAhead.dualConic SE3Quat.identity (pinhole fx fy cx cy) 1 2
      = -24 * cy := by
    rw [unitSphereAhead, Quadric.dualConic_axis]
    dsimp [pinhole, Matrix.vecHead, Matrix.vecTail]
    ring
  have h22 : unitSphereAhead.dualConic SE3Quat.identity (pinhole fx fy cx cy) 2 2 = -24 := by
    rw [unitSphereAhead, Quadric.dualConic_axis]
    dsimp [pinhole, Matrix.vecHead, Matrix.vecTail]
    ring
  obtain ⟨_, e0, e1, e2, e3, e4, e5⟩ := Quadric.coefficients_of_dualConic unitSphereAhead
    SE3Quat.identity (pinhole fx fy cx cy) _ _ _ _ _ _ (-24 * fx ^ 2 * fy ^ 2)
    h00 h01 h02 h11 h12 h22 (by ring)
  have g0 : Quadric.conicCoefficients (unitSphereAhead.toConic SE3Quat.identity (pinhole fx fy cx cy)) 0
      = 1 / fx ^ 2 := by
    rw [e0]; field_simp; ring
  have g1 : Quadric.conicCoefficients (unitSphereAhead.toConic SE3Quat.identity (pinhole fx fy cx cy)) 1
      = 0 := by
    rw [e1]; field_simp; ring
  have g2 : Quadric.conicCoefficients (unitSphereAhead.toConic SE3Quat.identity (pinhole fx fy cx cy)) 2
      = 1 / fy ^ 2 := by
    rw [e2]; field_simp; ring
  have g3 : Quadric.conicCoefficients (unitSphereAhead.toConic SE3Quat.identity (pinhole fx fy cx cy)) 3
      = -2 * cx / fx ^ 2 := by
    rw [e3]; field_simp; ring
  have g4 : Quadric.conicCoefficients (unitSphereAhead.toConic SE3Quat.identity (pinhole fx fy cx cy)) 4
      = -2 * cy / fy ^ 2 := by
    rw [e4]; field_simp; ring
  have g5 : Quadric.conicCoefficients (unitSphereAhead.toConic SE3Quat.identity (pinhole fx fy cx cy)) 5
      = cx ^ 2 / fx ^ 2 + cy ^ 2 / fy ^ 2 - 1 / 24 := by
    rw [e5]; field_simp; ring
  have vx : (8 / (Real.sqrt 24 * fx * fy ^ 2)) ^ 2 = 64 / (24 * fx ^ 2 * fy ^ 4) := by
    rw [div_pow, mul_pow, mul_pow, h24sq]; ring
  have vy : (8 / (Real.sqrt 24 * fx ^ 2 * fy)) ^ 2 = 64 / (24 * fx ^ 4 * fy ^ 2) := by
    rw [div_pow, mul_pow, mul_pow, h24sq]; ring
  rw [Quadric.projectOntoImageRect_eq,
    Quadric.tangentRect_eval _ _ _ _ _ _ _ (8 / (Real.sqrt 24 * fx * fy ^ 2))
      (8 / (Real.sqrt 24 * fx ^ 2 * fy)) g0 g1 g2 g3 g4 g5 (by positivity) (by positivity)
      (by rw [vx]; field_simp; ring) (by rw [vy]; field_simp; ring)]
  have px : 0 < fx / Real.sqrt 24 := by positivity
  have py : 0 < fy / Real.sqrt 24 := by positivity
  have x0 : (4 * (-2 * cx / fx ^ 2) * (1 / fy ^ 2) - 2 * 0 * (-2 * cy / fy ^ 2)
        + 8 / (Real.sqrt 24 * fx * fy ^ 2)) / (2 * (0 ^ 2 - 4 * (1 / fy ^ 2) * (1 / fx ^ 2)))
      = cx - fx / Real.sqrt 24 := by
    field_simp; ring
  have x1 : (4 * (-2 * cx / fx ^ 2) * (1 / fy ^ 2) - 2 * 0 * (-2 * cy / fy ^ 2)
        - 8 / (Real.sqrt 24 * fx * fy ^ 2)) / (2 * (0 ^ 2 - 4 * (1 / fy ^ 2) * (1 / fx ^ 2)))
      = cx + fx / Real.sqrt 24 := by
    field_simp; ring
  have y0 : (4 * (-2 * cy / fy ^ 2) * (1 / fx ^ 2) - 2 * 0 * (-2 * cx / fx ^ 2)
        + 8 / (Real.sqrt 24 * fx ^ 2 * fy)) / (2 * (0 ^ 2 - 4 * (1 / fy ^ 2) * (1 / fx ^ 2)))
      = cy - fy / Real.sqrt 24 := by
    field_simp; ring
  have y1 : (4 * (-2 * cy / fy ^ 2) * (1 / fx ^ 2) - 2 * 0 * (-2 * cx / fx ^ 2)
        - 8 / (Real.sqrt 24 * fx ^ 2 * fy)) / (2 * (0 ^ 2 - 4 * (1 / fy ^ 2) * (1 / fx ^ 2)))
      = cy + fy / Real.sqrt 24 := by
    field_simp; ring
  rw [x0, x1, y0, y1, min_eq_left (by linarith), min_eq_left (by linarith),
    max_eq_right (by linarith), max_eq_right (by linarith)]

/-- C9. Golden scenario: for all fx, fy > 0 and all cx, cy, the unit sphere with identity
rotation centred at (0, 0, 5), projected by projectOntoImageBbox with the identity camera pose
and the calibration [[fx, 0, cx], [0, fy, cy], [0, 0, 1]], gives a box whose centre is exactly
(cx, cy) and whose width and height are 2·fx/√24 and 2·fy/√24. -/
theorem Quadric.golden_scenario (fx fy cx cy : ℝ) (hfx : 0 < fx) (hfy : 0 < fy) :
    unitSphereAhead.projectOntoImageBbox realLibm SE3Quat.identity (pinhole fx fy cx cy)
      = ![cx, cy, 2 * fx / Real.sqrt 24, 2 * fy / Real.sqrt 24] := by
  have h := unitSphereAhead_rect fx fy cx cy hfx hfy
  have e : unitSphereAhead.projectOntoImageBbox realLibm SE3Quat.identity (pinhole fx fy cx cy)
      = ![(unitSphereAhead.projectOntoImageRect realLibm SE3Quat.identity (pinhole fx fy cx cy) 2
            + unitSphereAhead.projectOntoImageRect realLibm SE3Quat.identity (pinhole fx fy cx cy) 0) / 2,
          (unitSphereAhead.projectOntoImageRect realLibm SE3Quat.identity (pinhole fx fy cx cy) 3
            + unitSphereAhead.projectOntoImageRect realLibm SE3Quat.identity (pinhole fx fy cx cy) 1) / 2,
          unitSphereAhead.projectOntoImageRect realLibm SE3Quat.identity (pinhole fx fy cx cy) 2
            - unitSphereAhead.projectOntoImageRect realLibm SE3Quat.identity (pinhole fx fy cx cy) 0,
          unitSphereAhead.projectOntoImageRect realLibm SE3Quat.identity (pinhole fx fy cx cy) 3
            - unitSphereAhead.projectOntoImageRect realLibm SE3Quat.identity (pinhole fx fy cx cy) 1] := rfl
  rw [e, h]
  ext i
  fin_cases i <;> dsimp [Matrix.vecHead, Matrix.vecTail] <;> ring


/-- Witness for C9: the golden scenario at fx = fy = 500 and principal point (320, 240). -/
theorem Quadric.golden_scenario_witness :
    (0 : ℝ) < 500 ∧ (0 : ℝ) < 500
      ∧ (unitSphereAhead : Quadric ℝ).projectOntoImageBbox realLibm SE3Quat.identity
          (pinhole 500 500 320 240)
        = ![320, 240, 2 * 500 / Real.sqrt 24, 2 * 500 / Real.sqrt 24] :=
  ⟨by norm_num, by norm_num, Quadric.golden_scenario 500 500 320 240 (by norm_num) (by norm_num)⟩

theorem sphereAhead_defined (r : ℝ) (h0 : 0 < r) (h5 : r < 5) :
    (sphereAhead r).ProjectionDefined SE3Quat.identity 1
    ∧ (sphereAhead r).dualConic SE3Quat.identity 1 2 2 < 0 := by
  have hr : r ≠ 0 := h0.ne'
  have hneg : r ^ 2 - 25 < 0 := by nlinarith
  have hne : r ^ 2 - 25 ≠ 0 := hneg.ne
  have h00 : (sphereAhead r).dualConic SE3Quat.identity 1 0 0 = r ^ 2 := by
    rw [sphereAhead, Quadric.dualConic_axis]
    simp only [Matrix.one_fin_three]
    dsimp [Matrix.vecHead, Matrix.vecTail]
    ring
  have h01 : (sphereAhead r).dualConic SE3Quat.identity 1 0 1 = 0 := by
    rw [sphereAhead, Quadric.dualConic_axis]
    simp only [Matrix.one_fin_three]
    dsimp [Matrix.vecHead, Matrix.vecTail]
    ring
  have h02 : (sphereAhead r).dualConic SE3Quat.identity 1 0 2 = 0 := by
    rw [sphereAhead, Quadric.dualConic_axis]
    simp only [Matrix.one_fin_three]
    dsimp [Matrix.vecHead, Matrix.vecTail]
    ring
  have h11 : (sphereAhead r).dualConic SE3Quat.identity 1 1 1 = r ^ 2 := by
    rw [sphereAhead, Quadric.dualConic_axis]
    simp only [Matrix.one_fin_three]
    dsimp [Matrix.vecHead, Matrix.vecTail]
    ring
  have h12 : (sphereAhead r).dualConic SE3Quat.identity 1 1 2 = 0 := by
    rw [sphereAhead, Quadric.dualConic_axis]
    simp only [Matrix.one_fin_three]
    dsimp [Matrix.vecHead, Matrix.vecTail]
    ring
  have h22 : (sphereAhead r).dualConic SE3Quat.identity 1 2 2 = r ^ 2 - 25 := by
    rw [sphereAhead, Quadric.dualConic_axis]
    simp only [Matrix.one_fin_three]
    dsimp [Matrix.vecHead, Matrix.vecTail]
    ring
  obtain ⟨hdet, e0, e1, e2, e3, e4, e5⟩ := Quadric.coefficients_of_dualConic (sphereAhead r)
    SE3Quat.identity 1 _ _ _ _ _ _ (r ^ 4 * (r ^ 2 - 25)) h00 h01 h02 h11 h12 h22 (by ring)
  have hD : r ^ 4 * (r ^ 2 - 25) ≠ 0 := mul_ne_zero (pow_ne_zero 4 hr) hne
  have g0 : Quadric.conicCoefficients ((sphereAhead r).toConic SE3Quat.identity 1) 0 = 1 / r ^ 2 := by
    rw [e0]; field_simp; ring
  have g1 : Quadric.conicCoefficients ((sphereAhead r).toConic SE3Quat.identity 1) 1 = 0 := by
    rw [e1]; ring
  have g2 : Quadric.conicCoefficients ((sphereAhead r).toConic SE3Quat.identity 1) 2 = 1 / r ^ 2 := by
    rw [e2]; field_simp; ring
  have g3 : Quadric.conicCoefficients ((sphereAhead r).toConic SE3Quat.identity 1) 3 = 0 := by
    rw [e3]; ring
  have g4 : Quadric.conicCoefficients ((sphereAhead r).toConic SE3Quat.identity 1) 4 = 0 := by
    rw [e4]; ring
  have g5 : Quadric.conicCoefficients ((sphereAhead r).toConic SE3Quat.identity 1) 5
      = 1 / (r ^ 2 - 25) := by
    rw [e5, eq_div_iff hne, inv_mul_eq_div, div_mul_eq_mul_div, div_eq_iff hD]; ring
  have hq : 0 ≤ -(1 / (r ^ 2 - 25)) := by
    rw [neg_nonneg]
    exact div_nonpos_of_nonneg_of_nonpos zero_le_one hneg.le
  have hr6 : 0 < 1 / r ^ 6 := by positivity
  refine ⟨⟨by rw [hdet]; exact hD, ?_, ?_, ?_⟩, by rw [h22]; exact hneg⟩
  · rw [conicDisc, g0, g1, g2]
    have : 0 < 1 / r ^ 2 := by positivity
    nlinarith
  · rw [radicandX, g0, g1, g2, g3, g4, g5]
    have e : (2 * 0 * 0 - 4 * (1 / r ^ 2) * 0) ^ 2
        - 4 * (0 ^ 2 - 4 * (1 / r ^ 2) * (1 / r ^ 2)) * (0 ^ 2 - 4 * (1 / r ^ 2) * (1 / (r ^ 2 - 25)))
        = 64 * (1 / r ^ 6) * -(1 / (r ^ 2 - 25)) := by
      field_simp; ring
    rw [e]; positivity
  · rw [radicandY, g0, g1, g2, g3, g4, g5]
    have e : (2 * 0 * 0 - 4 * (1 / r ^ 2) * 0) ^ 2
        - 4 * (0 ^ 2 - 4 * (1 / r ^ 2) * (1 / r ^ 2)) * (0 ^ 2 - 4 * (1 / r ^ 2) * (1 / (r ^ 2 - 25)))
        = 64 * (1 / r ^ 6) * -(1 / (r ^ 2 - 25)) := by
      field_simp; ring
    rw [e]; positivity

/-- C10 (amended). Projection monotonicity in front of the camera: for every quadric pose, camera
pose and calibration, and every two non-negative scale triples s ≤ s' (componentwise) for
which both projections are defined, if moreover the camera's principal plane does not meet the
larger quadric (the (2,2) entry of P·Q'·Pᵀ is negative), then the rectangle returned by
projectOntoImageRect for s' contains the rectangle for s: xmin' ≤ xmin, ymin' ≤ ymin,
xmax ≤ xmax' and ymax ≤ ymax'. -/
theorem Quadric.projection_monotone_in_front (pose cam : SE3Quat ℝ) (calib : Matrix3d ℝ)
    (s s' : Vector3d ℝ) (hs : ∀ i, 0 ≤ s i) (hss : ∀ i, s i ≤ s' i)
    (hd : (⟨pose, s⟩ : Quadric ℝ).ProjectionDefined cam calib)
    (hd' : (⟨pose, s'⟩ : Quadric ℝ).ProjectionDefined cam calib)
    (hfront : (⟨pose, s'⟩ : Quadric ℝ).dualConic cam calib 2 2 < 0) :
    (⟨pose, s'⟩ : Quadric ℝ).projectOntoImageRect realLibm cam calib 0
        ≤ (⟨pose, s⟩ : Quadric ℝ).projectOntoImageRect realLibm cam calib 0
    ∧ (⟨pose, s'⟩ : Quadric ℝ).projectOntoImageRect realLibm cam calib 1
        ≤ (⟨pose, s⟩ : Quadric ℝ).projectOntoImageRect realLibm cam calib 1
    ∧ (⟨pose, s⟩ : Quadric ℝ).projectOntoImageRect realLibm cam calib 2
        ≤ (⟨pose, s'⟩ : Quadric ℝ).projectOntoImageRect realLibm cam calib 2
    ∧ (⟨pose, s⟩ : Quadric ℝ).projectOntoImageRect realLibm cam calib 3
        ≤ (⟨pose, s'⟩ : Quadric ℝ).projectOntoImageRect realLibm cam calib 3 := by
  obtain ⟨_, _, fx, fy⟩ := Quadric.rect_factor _ cam calib hd
  obtain ⟨lx, ly, fx', fy'⟩ := Quadric.rect_factor _ cam calib hd'
  have mx := Quadric.dual_quadratic_mono pose cam calib s s' hs hss 0
  have my := Quadric.dual_quadratic_mono pose cam calib s s' hs hss 1
  have bx : ∀ z, (⟨pose, s⟩ : Quadric ℝ).dualConic cam calib 2 2 * z ^ 2
        - 2 * (⟨pose, s⟩ : Quadric ℝ).dualConic cam calib 0 2 * z
        + (⟨pose, s⟩ : Quadric ℝ).dualConic cam calib 0 0 = 0 →
      (⟨pose, s'⟩ : Quadric ℝ).projectOntoImageRect realLibm cam calib 0 ≤ z
        ∧ z ≤ (⟨pose, s'⟩ : Quadric ℝ).projectOntoImageRect realLibm cam calib 2 := by
    intro z hz
    apply between_of_neg _ _ _ _ hfront lx
    rw [← fx' z, ← hz]
    exact mx z
  have by' : ∀ z, (⟨pose, s⟩ : Quadric ℝ).dualConic cam calib 2 2 * z ^ 2
        - 2 * (⟨pose, s⟩ : Quadric ℝ).dualConic cam calib 1 2 * z
        + (⟨pose, s⟩ : Quadric ℝ).dualConic cam calib 1 1 = 0 →
      (⟨pose, s'⟩ : Quadric ℝ).projectOntoImageRect realLibm cam calib 1 ≤ z
        ∧ z ≤ (⟨pose, s'⟩ : Quadric ℝ).projectOntoImageRect realLibm cam calib 3 := by
    intro z hz
    apply between_of_neg _ _ _ _ hfront ly
    rw [← fy' z, ← hz]
    exact my z
  refine ⟨(bx _ ?_).1, (by' _ ?_).1, (bx _ ?_).2, (by' _ ?_).2⟩
  · rw [fx]; ring
  · rw [fy]; ring
  · rw [fx]; ring
  · rw [fy]; ring


/-- Witness for C10 (amended): spheres of radius 1 and 2 five units in front of the camera. -/
theorem Quadric.projection_monotone_in_front_witness :
    (∀ i, 0 ≤ (![1, 1, 1] : Vector3d ℝ) i)
    ∧ (∀ i, (![1, 1, 1] : Vector3d ℝ) i ≤ (![2, 2, 2] : Vector3d ℝ) i)
    ∧ (sphereAhead (1 : ℝ)).ProjectionDefined SE3Quat.identity 1
    ∧ (sphereAhead (2 : ℝ)).ProjectionDefined SE3Quat.identity 1
    ∧ (sphereAhead (2 : ℝ)).dualConic SE3Quat.identity 1 2 2 < 0
    ∧ ((sphereAhead (2 : ℝ)).projectOntoImageRect realLibm SE3Quat.identity 1 0
          ≤ (sphereAhead (1 : ℝ)).projectOntoImageRect realLibm SE3Quat.identity 1 0
      ∧ (sphereAhead (2 : ℝ)).projectOntoImageRect realLibm SE3Quat.identity 1 1
          ≤ (sphereAhead (1 : ℝ)).projectOntoImageRect realLibm SE3Quat.identity 1 1
      ∧ (sphereAhead (1 : ℝ)).projectOntoImageRect realLibm SE3Quat.identity 1 2
          ≤ (sphereAhead (2 : ℝ)).projectOntoImageRect realLibm SE3Quat.identity 1 2
      ∧ (sphereAhead (1 : ℝ)).projectOntoImageRect realLibm SE3Quat.identity 1 3
          ≤ (sphereAhead (2 : ℝ)).projectOntoImageRect realLibm SE3Quat.identity 1 3) :=
  have h1 : ∀ i, 0 ≤ (![1, 1, 1] : Vector3d ℝ) i := by
    intro i; fin_cases i <;> dsimp [Matrix.vecHead, Matrix.vecTail] <;> norm_num
  have h2 : ∀ i, (![1, 1, 1] : Vector3d ℝ) i ≤ (![2, 2, 2] : Vector3d ℝ) i := by
    intro i; fin_cases i <;> dsimp [Matrix.vecHead, Matrix.vecTail] <;> norm_num
  have d1 := sphereAhead_defined 1 (by norm_num) (by norm_num)
  have d2 := sphereAhead_defined 2 (by norm_num) (by norm_num)
  ⟨h1, h2, d1.1, d2.1, d2.2,
    Quadric.projection_monotone_in_front ⟨1, ![0, 0, 5]⟩ SE3Quat.identity 1 ![1, 1, 1] ![2, 2, 2]
      h1 h2 d1.1 d2.1 d2.2⟩

/-- Counterexample to C10 as stated: a quadric centred on the camera's principal plane, with
semi-axes (3, 3, 1) and then (3, 3, 2).  Both projections are defined, the scale only grows,
and the right edge of the rectangle moves in from 4 to 2. -/
theorem Quadric.projection_monotone_counterexample :
    (besideCamera (1 : ℝ)).pose = (besideCamera (2 : ℝ)).pose
    ∧ (∀ i, 0 ≤ (besideCamera (1 : ℝ)).scale i)
    ∧ (∀ i, (besideCamera (1 : ℝ)).scale i ≤ (besideCamera (2 : ℝ)).scale i)
    ∧ (besideCamera (1 : ℝ)).ProjectionDefined SE3Quat.identity 1
    ∧ (besideCamera (2 : ℝ)).ProjectionDefined SE3Quat.identity 1
    ∧ ¬ ((besideCamera (1 : ℝ)).projectOntoImageRect realLibm SE3Quat.identity 1 2
          ≤ (besideCamera (2 : ℝ)).projectOntoImageRect realLibm SE3Quat.identity 1 2) := by
  obtain ⟨d1, r1⟩ := besideCamera_rect 1 (by norm_num)
  obtain ⟨d2, r2⟩ := besideCamera_rect 2 (by norm_num)
  refine ⟨rfl, ?_, ?_, d1, d2, ?_⟩
  · intro i; fin_cases i <;> dsimp [besideCamera, Matrix.vecHead, Matrix.vecTail] <;> norm_num
  · intro i; fin_cases i <;> dsimp [besideCamera, Matrix.vecHead, Matrix.vecTail] <;> norm_num
  · rw [r1, r2]
    dsimp [Matrix.vecHead, Matrix.vecTail]
    norm_num

theorem arg_scaled_cos_sin (c θ : ℝ) (hc : 0 < c) (hθ : θ ∈ Set.Ioc (-Real.pi) Real.pi) :
    Complex.arg ⟨c * Real.cos θ, c * Real.sin θ⟩ = θ := by
  have h : (⟨c * Real.cos θ, c * Real.sin θ⟩ : ℂ)
      = (c : ℂ) * (Complex.cos θ + Complex.sin θ * Complex.I) := by
    apply Complex.ext
    · simp [← Complex.ofReal_cos, ← Complex.ofReal_sin]
    · simp [← Complex.ofReal_cos, ← Complex.ofReal_sin]
  rw [h]
  exact Complex.arg_mul_cos_add_sin_mul_I hc hθ

/-- C4. Minimal-vector round trip: for every 9-vector v = (t, roll, pitch, yaw, s) with pitch
strictly inside (−π/2, π/2) and roll, yaw inside (−π, π], building a quadric with
fromMinimalVector and reading it back with toMinimalVector returns v. -/
theorem Quadric.toMinimalVector_fromMinimalVector (v : Vector9d ℝ)
    (hroll : v 3 ∈ Set.Ioc (-Real.pi) Real.pi)
    (hpitch : v 4 ∈ Set.Ioo (-(Real.pi / 2)) (Real.pi / 2))
    (hyaw : v 5 ∈ Set.Ioc (-Real.pi) Real.pi) :
    (Quadric.fromMinimalVector realLibm v).toMinimalVector realLibm = v := by
  obtain ⟨e20, e21, e22, e10, e00⟩ := zyx_euler_to_quat_entries realLibm (v 3) (v 4) (v 5)
  have hcp : 0 < Real.cos (v 4) := Real.cos_pos_of_mem_Ioo hpitch
  have hr : (Quadric.fromMinimalVector realLibm v).toMinimalVector realLibm 3 = v 3 := by
    show Complex.arg ⟨zyx_euler_to_quat realLibm (v 3) (v 4) (v 5) 2 2,
      zyx_euler_to_quat realLibm (v 3) (v 4) (v 5) 2 1⟩ = v 3
    rw [e21, e22]
    exact arg_scaled_cos_sin _ _ hcp hroll
  have hp : (Quadric.fromMinimalVector realLibm v).toMinimalVector realLibm 4 = v 4 := by
    show Real.arcsin (-(zyx_euler_to_quat realLibm (v 3) (v 4) (v 5) 2 0)) = v 4
    rw [e20]
    show Real.arcsin (- -(Real.sin (v 4))) = v 4
    rw [neg_neg]
    exact Real.arcsin_sin hpitch.1.le hpitch.2.le
  have hy : (Quadric.fromMinimalVector realLibm v).toMinimalVector realLibm 5 = v 5 := by
    show Complex.arg ⟨zyx_euler_to_quat realLibm (v 3) (v 4) (v 5) 0 0,
      zyx_euler_to_quat realLibm (v 3) (v 4) (v 5) 1 0⟩ = v 5
    rw [e10, e00]
    exact arg_scaled_cos_sin _ _ hcp hyaw
  ext i
  fin_cases i
  · rfl
  · rfl
  · rfl
  · exact hr
  · exact hp
  · exact hy
  · rfl
  · rfl
  · rfl


/-- Witness for C4: translation (1, 2, 3), roll 1, pitch 1/2, yaw −1, scale (1, 2, 3). -/
theorem Quadric.toMinimalVector_fromMinimalVector_witness :
    (exampleMinimalVector : Vector9d ℝ) 3 ∈ Set.Ioc (-Real.pi) Real.pi
    ∧ (exampleMinimalVector : Vector9d ℝ) 4 ∈ Set.Ioo (-(Real.pi / 2)) (Real.pi / 2)
    ∧ (exampleMinimalVector : Vector9d ℝ) 5 ∈ Set.Ioc (-Real.pi) Real.pi
    ∧ (Quadric.fromMinimalVector realLibm exampleMinimalVector).toMinimalVector realLibm
        = exampleMinimalVector :=
  have h3 : (exampleMinimalVector : Vector9d ℝ) 3 ∈ Set.Ioc (-Real.pi) Real.pi := by
    show (1 : ℝ) ∈ Set.Ioc (-Real.pi) Real.pi
    constructor <;> linarith [Real.pi_gt_three]
  have h4 : (exampleMinimalVector : Vector9d ℝ) 4 ∈ Set.Ioo (-(Real.pi / 2)) (Real.pi / 2) := by
    show (1 / 2 : ℝ) ∈ Set.Ioo (-(Real.pi / 2)) (Real.pi / 2)
    constructor <;> linarith [Real.pi_gt_three]
  have h5 : (exampleMinimalVector : Vector9d ℝ) 5 ∈ Set.Ioc (-Real.pi) Real.pi := by
    show (-1 : ℝ) ∈ Set.Ioc (-Real.pi) Real.pi
    constructor <;> linarith [Real.pi_gt_three]
  ⟨h3, h4, h5, Quadric.toMinimalVector_fromMinimalVector exampleMinimalVector h3 h4 h5⟩

/-- C11. The closed-form rectangle consists of the conic's axis-aligned tangent values: for
coefficients (A, B, C, D, E, F) with B² − 4AC ≠ 0 and non-negative radicands, the two y values
of the result are roots of (B² − 4AC)·y² + (2BD − 4AE)·y + (D² − 4AF) = 0, the two x values
are roots of (B² − 4AC)·x² + (2BE − 4CD)·x + (E² − 4CF) = 0, and xmin ≤ xmax, ymin ≤ ymax;
projectOntoImageRect returns this rectangle for the coefficients of toConic. -/
theorem Quadric.rect_values_are_tangent_roots (c : Vector6d ℝ) (hdisc : conicDisc c ≠ 0)
    (hx : 0 ≤ radicandX c) (hy : 0 ≤ radicandY c) :
    (∀ y, (y = Quadric.tangentRect realLibm c 1 ∨ y = Quadric.tangentRect realLibm c 3) →
        (c 1 ^ 2 - 4 * c 0 * c 2) * y ^ 2 + (2 * c 1 * c 3 - 4 * c 0 * c 4) * y
          + (c 3 ^ 2 - 4 * c 0 * c 5) = 0)
    ∧ (∀ x, (x = Quadric.tangentRect realLibm c 0 ∨ x = Quadric.tangentRect realLibm c 2) →
        (c 1 ^ 2 - 4 * c 0 * c 2) * x ^ 2 + (2 * c 1 * c 4 - 4 * c 2 * c 3) * x
          + (c 4 ^ 2 - 4 * c 2 * c 5) = 0)
    ∧ Quadric.tangentRect realLibm c 0 ≤ Quadric.tangentRect realLibm c 2
    ∧ Quadric.tangentRect realLibm c 1 ≤ Quadric.tangentRect realLibm c 3
    ∧ ∀ (q : Quadric ℝ) (cam : SE3Quat ℝ) (calib : Matrix3d ℝ),
        q.projectOntoImageRect realLibm cam calib
          = Quadric.tangentRect realLibm (Quadric.conicCoefficients (q.toConic cam calib)) := by
  obtain ⟨h02, h13, fx, fy⟩ := tangentRect_roots c hdisc hx hy
  refine ⟨?_, ?_, h02, h13, fun _ _ _ => rfl⟩
  · rintro y (rfl | rfl)
    · rw [fy]; ring
    · rw [fy]; ring
  · rintro x (rfl | rfl)
    · rw [fx]; ring
    · rw [fx]; ring

/-- Witness for C11: the unit circle, whose tangent values are −1 and 1 on both axes. -/
theorem Quadric.rect_values_are_tangent_roots_witness :
    conicDisc (unitCircle : Vector6d ℝ) ≠ 0
    ∧ 0 ≤ radicandX (unitCircle : Vector6d ℝ)
    ∧ 0 ≤ radicandY (unitCircle : Vector6d ℝ)
    ∧ Quadric.tangentRect realLibm unitCircle 0 ≤ Quadric.tangentRect realLibm unitCircle 2
    ∧ Quadric.tangentRect realLibm unitCircle 1 ≤ Quadric.tangentRect realLibm unitCircle 3 :=
  have h0 : (unitCircle : Vector6d ℝ) 0 = 1 := rfl
  have h1 : (unitCircle : Vector6d ℝ) 1 = 0 := rfl
  have h2 : (unitCircle : Vector6d ℝ) 2 = 1 := rfl
  have h3 : (unitCircle : Vector6d ℝ) 3 = 0 := rfl
  have h4 : (unitCircle : Vector6d ℝ) 4 = 0 := rfl
  have h5 : (unitCircle : Vector6d ℝ) 5 = -1 := rfl
  have hd : conicDisc (unitCircle : Vector6d ℝ) ≠ 0 := by
    rw [conicDisc, h0, h1, h2]; norm_num
  have hx : 0 ≤ radicandX (unitCircle : Vector6d ℝ) := by
    rw [radicandX, h0, h1, h2, h3, h4, h5]; norm_num
  have hy : 0 ≤ radicandY (unitCircle : Vector6d ℝ) := by
    rw [radicandY, h0, h1, h2, h3, h4, h5]; norm_num
  ⟨hd, hx, hy, (Quadric.rect_values_are_tangent_roots unitCircle hd hx hy).2.2.1,
    (Quadric.rect_values_are_tangent_roots unitCircle hd hx hy).2.2.2.1⟩

theorem sqrt_pow_four_mul (k r : ℝ) : Real.sqrt (k ^ 4 * r) = k ^ 2 * Real.sqrt r := by
  rw [Real.sqrt_mul (by positivity), show k ^ 4 = (k ^ 2) ^ 2 by ring, Real.sqrt_sq (by positivity)]

theorem Quadric.tangentRect_smul_eq (c : Vector6d ℝ) (k : ℝ) (hk : k ≠ 0) :
    Quadric.tangentRect realLibm (k • c) = Quadric.tangentRect realLibm c := by
  have hk2 : k ^ 2 ≠ 0 := pow_ne_zero 2 hk
  have ex : (2 * (k * c 1) * (k * c 4) - 4 * (k * c 2) * (k * c 3)) ^ 2
      - 4 * ((k * c 1) ^ 2 - 4 * (k * c 0) * (k * c 2)) * ((k * c 4) ^ 2 - 4 * (k * c 2) * (k * c 5))
      = k ^ 4 * ((2 * c 1 * c 4 - 4 * c 2 * c 3) ^ 2
          - 4 * (c 1 ^ 2 - 4 * c 0 * c 2) * (c 4 ^ 2 - 4 * c 2 * c 5)) := by ring
  have ey : (2 * (k * c 1) * (k * c 3) - 4 * (k * c 0) * (k * c 4)) ^ 2
      - 4 * ((k * c 1) ^ 2 - 4 * (k * c 0) * (k * c 2)) * ((k * c 3) ^ 2 - 4 * (k * c 0) * (k * c 5))
      = k ^ 4 * ((2 * c 1 * c 3 - 4 * c 0 * c 4) ^ 2
          - 4 * (c 1 ^ 2 - 4 * c 0 * c 2) * (c 3 ^ 2 - 4 * c 0 * c 5)) := by ring
  have q : ∀ n s a : ℝ, (k ^ 2 * n) / (2 * (k ^ 2 * a)) = n / (2 * a) ∧ True := by
    intro n s a
    refine ⟨?_, trivial⟩
    rw [show 2 * (k ^ 2 * a) = k ^ 2 * (2 * a) by ring, mul_div_mul_left _ _ hk2]
  simp only [Quadric.tangentRect, realLibm, Pi.smul_apply, smul_eq_mul, ex, ey, sqrt_pow_four_mul]
  have e1 : ∀ a b s : ℝ, 4 * (k * a) * (k * b) - 2 * (k * c 1) * (k * s) = k ^ 2 * (4 * a * b - 2 * c 1 * s) := by
    intros; ring
  have e2 : (k * c 1) ^ 2 - 4 * (k * c 2) * (k * c 0) = k ^ 2 * (c 1 ^ 2 - 4 * c 2 * c 0) := by ring
  simp only [e1, e2, ← mul_add, ← mul_sub]
  simp only [(q _ 0 _).1]

/-- C19. The rectangle does not depend on the scale of the conic matrix: for coefficients with
B² − 4AC ≠ 0 and every k ≠ 0, the scaled coefficients again have B² − 4AC ≠ 0 and the closed
form returns the same rectangle on them; so the adjugate of P·Q·Pᵀ, which is its determinant
times the inverse used by toConic, gives the rectangle of projectOntoImageRect. -/
theorem Quadric.rect_independent_of_conic_scale (c : Vector6d ℝ) (k : ℝ) (hk : k ≠ 0)
    (hdisc : conicDisc c ≠ 0) :
    conicDisc (k • c) ≠ 0
    ∧ Quadric.tangentRect realLibm (k • c) = Quadric.tangentRect realLibm c
    ∧ ∀ (q : Quadric ℝ) (cam : SE3Quat ℝ) (calib : Matrix3d ℝ),
        (q.dualConic cam calib).det ≠ 0 →
        Quadric.tangentRect realLibm
            (Quadric.conicCoefficients (q.dualConic cam calib).adjugate)
          = q.projectOntoImageRect realLibm cam calib := by
  refine ⟨?_, Quadric.tangentRect_smul_eq c k hk, ?_⟩
  · rw [conicDisc_smul]
    exact mul_ne_zero (pow_ne_zero 2 hk) hdisc
  · intro q cam calib hdet
    rw [adjugate_eq_det_smul_inverse _ hdet, Quadric.conicCoefficients_smul,
      Quadric.tangentRect_smul_eq _ _ hdet]
    rfl

theorem unitSphereAhead_dualConic_det :
    ((unitSphereAhead : Quadric ℝ).dualConic SE3Quat.identity 1).det = -24 := by
  have h : ∀ i j, (unitSphereAhead : Quadric ℝ).dualConic SE3Quat.identity 1 i j
      = (Matrix.diagonal ![1, 1, -24] : Matrix3d ℝ) i j := by
    intro i j
    rw [unitSphereAhead, Quadric.dualConic_axis]
    fin_cases i <;> fin_cases j <;> simp only [Matrix.one_fin_three] <;>
      dsimp [Matrix.vecHead, Matrix.vecTail] <;> norm_num <;>
      exact (Matrix.diagonal_apply_ne _ (by decide)).symm
  rw [Matrix.ext h, Matrix.det_diagonal, Fin.prod_univ_three]
  dsimp [Matrix.vecHead, Matrix.vecTail]
  norm_num

/-- Witness for C19: the unit circle scaled by −3, and the unit sphere five units in front of
the identity camera. -/
theorem Quadric.rect_independent_of_conic_scale_witness :
    (-3 : ℝ) ≠ 0 ∧ conicDisc (unitCircle : Vector6d ℝ) ≠ 0
    ∧ Quadric.tangentRect realLibm ((-3 : ℝ) • unitCircle)
        = Quadric.tangentRect realLibm unitCircle
    ∧ ((unitSphereAhead : Quadric ℝ).dualConic SE3Quat.identity 1).det ≠ 0
    ∧ Quadric.tangentRect realLibm (Quadric.conicCoefficients
          ((unitSphereAhead : Quadric ℝ).dualConic SE3Quat.identity 1).adjugate)
        = (unitSphereAhead : Quadric ℝ).projectOntoImageRect realLibm SE3Quat.identity 1 :=
  have h0 : (unitCircle : Vector6d ℝ) 0 = 1 := rfl
  have h1 : (unitCircle : Vector6d ℝ) 1 = 0 := rfl
  have h2 : (unitCircle : Vector6d ℝ) 2 = 1 := rfl
  have hd : conicDisc (unitCircle : Vector6d ℝ) ≠ 0 := by
    rw [conicDisc, h0, h1, h2]; norm_num
  have hdet : ((unitSphereAhead : Quadric ℝ).dualConic SE3Quat.identity 1).det ≠ 0 := by
    rw [unitSphereAhead_dualConic_det]; norm_num
  have h := Quadric.rect_independent_of_conic_scale unitCircle (-3) (by norm_num) hd
  ⟨by norm_num, hd, h.2.1, hdet, h.2.2 unitSphereAhead SE3Quat.identity 1 hdet⟩

theorem realLibm_cbrt_mul (x y : ℝ) :
    realLibm.cbrt (x * y) = realLibm.cbrt x * realLibm.cbrt y := by
  show (SignType.sign (x * y) : ℝ) * |x * y| ^ ((1 : ℝ) / 3)
    = (SignType.sign x : ℝ) * |x| ^ ((1 : ℝ) / 3) * ((SignType.sign y : ℝ) * |y| ^ ((1 : ℝ) / 3))
  rw [sign_mul, abs_mul, Real.mul_rpow (abs_nonneg x) (abs_nonneg y)]
  push_cast
  ring

theorem realLibm_cbrt_pos (x : ℝ) (hx : 0 < x) : 0 < realLibm.cbrt x := by
  show 0 < (SignType.sign x : ℝ) * |x| ^ ((1 : ℝ) / 3)
  rw [sign_pos hx]
  have : 0 < |x| ^ ((1 : ℝ) / 3) := Real.rpow_pos_of_pos (abs_pos.2 hx.ne') _
  have e : ((1 : SignType) : ℝ) = 1 := by simp
  rw [e]
  linarith

theorem realLibm_cbrt_cube (x : ℝ) (hx : 0 < x) : realLibm.cbrt (x ^ 3) = x := by
  show (SignType.sign (x ^ 3) : ℝ) * |x ^ 3| ^ ((1 : ℝ) / 3) = x
  rw [sign_pos (pow_pos hx 3), abs_of_pos (pow_pos hx 3)]
  have e : ((1 : SignType) : ℝ) = 1 := by simp
  have e3 : ((1 : ℝ) / 3) = ((3 : ℕ) : ℝ)⁻¹ := by norm_num
  rw [e, e3, Real.pow_rpow_inv_natCast hx.le (by norm_num), one_mul]

theorem realLibm_cbrt_neg (x : ℝ) (hx : x < 0) : realLibm.cbrt x < 0 := by
  show (SignType.sign x : ℝ) * |x| ^ ((1 : ℝ) / 3) < 0
  rw [sign_neg hx]
  have : 0 < |x| ^ ((1 : ℝ) / 3) := Real.rpow_pos_of_pos (abs_pos.2 hx.ne) _
  have e : ((-1 : SignType) : ℝ) = -1 := by simp
  rw [e]
  linarith

/-- C17. Semi-axis recovery: for every quadric q with positive semi-axes and any rigid pose,
with v the row-major upper triangle of toSymMat(q) and an eigen-solver that returns the
eigenvalues of the 3×3 block of the normalised inverse in increasing order, the scale computed
by fromVector10d(v) as sqrt(|−det_ratio / λ_i|) is the triple of semi-axes of q rearranged in
ascending order. -/
theorem Quadric.semi_axes_recovered (E : EigenLib ℝ) (q : Quadric ℝ) (hq : q.pose.IsRigid)
    (hs : ∀ i, 0 < q.scale i)
    (hE : E.SortedSpectrum (Quadric.quadric33 realLibm (upperTriangle q.toSymMat))) :
    (Quadric.fromVector10d realLibm E (upperTriangle q.toSymMat)).scale
        = q.scale ∘ Tuple.sort q.scale
    ∧ Monotone (q.scale ∘ Tuple.sort q.scale) := by
  refine ⟨?_, Tuple.monotone_sort q.scale⟩
  have hs0 : ∀ i, q.scale i ≠ 0 := fun i => (hs i).ne'
  obtain ⟨hdet, hq33, hratio⟩ := Quadric.decomposition_facts realLibm q hq hs0
  have hppos : 0 < (q.scale 0 * q.scale 1 * q.scale 2) ^ 2 :=
    pow_pos (mul_pos (mul_pos (hs 0) (hs 1)) (hs 2)) 2
  have hκ : realLibm.cbrt q.toSymMat.det < 0 := by
    apply realLibm_cbrt_neg
    rw [hdet]
    linarith
  have hratio' := hratio hκ.ne
  obtain ⟨hsorted, hchar⟩ := hE
  rw [Quadric.fromVector10d_scale, hratio', hq33]
  rw [hq33] at hsorted hchar
  generalize realLibm.cbrt q.toSymMat.det = κ at hκ hsorted hchar ⊢
  generalize E.eigenvalues (q.pose.R * Matrix.diagonal (fun i => κ * (q.scale i ^ 2)⁻¹)
      * q.pose.R.transpose) = ev at hsorted hchar ⊢
  -- the sorted semi-axes
  have hmono := Tuple.monotone_sort q.scale
  have m01 : q.scale (Tuple.sort q.scale 0) ≤ q.scale (Tuple.sort q.scale 1) :=
    hmono (by decide)
  have m12 : q.scale (Tuple.sort q.scale 1) ≤ q.scale (Tuple.sort q.scale 2) :=
    hmono (by decide)
  have key : ∀ a b : ℝ, 0 < a → a ≤ b → κ * (a ^ 2)⁻¹ ≤ κ * (b ^ 2)⁻¹ := by
    intro a b ha hab
    have h1 : (b ^ 2)⁻¹ ≤ (a ^ 2)⁻¹ :=
      inv_anti₀ (pow_pos ha 2) (pow_le_pow_left₀ ha.le hab 2)
    nlinarith
  have hev : ev = fun i => κ * (q.scale (Tuple.sort q.scale i) ^ 2)⁻¹ := by
    apply sorted_triple_unique ev _ hsorted ⟨key _ _ (hs _) m01, key _ _ (hs _) m12⟩
    intro x
    rw [← hchar x, det_conj_diagonal _ hq.1]
    have hprod := Equiv.prod_comp (Tuple.sort q.scale)
      (fun i => x - κ * (q.scale i ^ 2)⁻¹)
    rw [Fin.prod_univ_three, Fin.prod_univ_three] at hprod
    exact hprod.symm
  rw [hev]
  funext i
  show Real.sqrt |κ * (κ * (q.scale (Tuple.sort q.scale i) ^ 2)⁻¹)⁻¹| = _
  have hpos := hs (Tuple.sort q.scale i)
  have e : κ * (κ * (q.scale (Tuple.sort q.scale i) ^ 2)⁻¹)⁻¹
      = q.scale (Tuple.sort q.scale i) ^ 2 := by
    field_simp [hκ.ne, hpos.ne']
  rw [e, abs_of_nonneg (sq_nonneg _), Real.sqrt_sq hpos.le]
  rfl

theorem offAxisEllipsoid_quadric33 :
    Quadric.quadric33 realLibm (upperTriangle (offAxisEllipsoid : Quadric ℝ).toSymMat)
      = Matrix.diagonal (fun i => realLibm.cbrt (offAxisEllipsoid : Quadric ℝ).toSymMat.det
          * ((offAxisEllipsoid : Quadric ℝ).scale i ^ 2)⁻¹) := by
  rw [(Quadric.decomposition_facts realLibm offAxisEllipsoid offAxisEllipsoid_rigid
    (fun i => (offAxisEllipsoid_scale_pos i).ne')).2.1]
  simp [offAxisEllipsoid]

theorem offAxisEllipsoid_det : (offAxisEllipsoid : Quadric ℝ).toSymMat.det = -36 := by
  rw [(Quadric.decomposition_facts realLibm offAxisEllipsoid offAxisEllipsoid_rigid
    (fun i => (offAxisEllipsoid_scale_pos i).ne')).1]
  dsimp [offAxisEllipsoid, Matrix.vecHead, Matrix.vecTail]
  norm_num

theorem offAxisEllipsoid_sortedSpectrum (c : ℝ) (hc : 0 < c) :
    (diagonalEigen : EigenLib ℝ).SortedSpectrum
      (c • Quadric.quadric33 realLibm (upperTriangle (offAxisEllipsoid : Quadric ℝ).toSymMat)) := by
  rw [offAxisEllipsoid_quadric33, offAxisEllipsoid_det]
  have hκ : realLibm.cbrt (-36) < 0 := realLibm_cbrt_neg _ (by norm_num)
  generalize realLibm.cbrt (-36) = κ at hκ
  have e : c • Matrix.diagonal (fun i => κ * ((offAxisEllipsoid : Quadric ℝ).scale i ^ 2)⁻¹)
      = Matrix.diagonal (fun i => c * (κ * ((offAxisEllipsoid : Quadric ℝ).scale i ^ 2)⁻¹)) := by
    ext i j
    by_cases h : i = j
    · subst h; simp
    · simp [h]
  rw [e]
  apply diagonalEigen_sortedSpectrum
  dsimp [offAxisEllipsoid, Matrix.vecHead, Matrix.vecTail]
  constructor <;> nlinarith


/-- Witness for C17: the ellipsoid with semi-axes (1, 2, 3) centred at (2, 0, 5), with the
eigen-solver that reads the eigenvalues of a diagonal matrix off its diagonal. -/
theorem Quadric.semi_axes_recovered_witness :
    (offAxisEllipsoid : Quadric ℝ).pose.IsRigid
    ∧ (∀ i, 0 < (offAxisEllipsoid : Quadric ℝ).scale i)
    ∧ (diagonalEigen : EigenLib ℝ).SortedSpectrum
        (Quadric.quadric33 realLibm (upperTriangle (offAxisEllipsoid : Quadric ℝ).toSymMat))
    ∧ (Quadric.fromVector10d realLibm diagonalEigen
          (upperTriangle (offAxisEllipsoid : Quadric ℝ).toSymMat)).scale
        = (offAxisEllipsoid : Quadric ℝ).scale ∘ Tuple.sort (offAxisEllipsoid : Quadric ℝ).scale :=
  have hE : (diagonalEigen : EigenLib ℝ).SortedSpectrum
      (Quadric.quadric33 realLibm (upperTriangle (offAxisEllipsoid : Quadric ℝ).toSymMat)) := by
    have := offAxisEllipsoid_sortedSpectrum 1 one_pos
    rwa [one_smul] at this
  ⟨offAxisEllipsoid_rigid, offAxisEllipsoid_scale_pos, hE,
    (Quadric.semi_axes_recovered diagonalEigen offAxisEllipsoid offAxisEllipsoid_rigid
      offAxisEllipsoid_scale_pos hE).1⟩

/-- C18. Scale consistency of the decomposition: for every 10-vector v whose symmetric matrix
and whose normalised inverse 3×3 block are non-singular and with v9 ≠ 0, every real k > 0, and
an eigen-solver that returns eigenvalues in increasing order, the vector k·v meets the same
conditions, fromVector10d(k·v) has the same translation and the same semi-axes as
fromVector10d(v), while the matrix after the cube-root-of-determinant normalisation is
multiplied by cbrt(k), hence differs whenever k ≠ 1. -/
theorem Quadric.fromVector10d_scale_consistent (E : EigenLib ℝ) (v : Vector10d ℝ) (k : ℝ)
    (hdet : (Quadric.assembleDualQuadric v).det ≠ 0)
    (h33 : (Quadric.quadric33 realLibm v).det ≠ 0) (hv9 : v 9 ≠ 0) (hk : 0 < k)
    (hE : E.SortedSpectrum (Quadric.quadric33 realLibm v))
    (hE' : E.SortedSpectrum (Quadric.quadric33 realLibm (k • v))) :
    ((Quadric.assembleDualQuadric (k • v)).det ≠ 0
      ∧ (Quadric.quadric33 realLibm (k • v)).det ≠ 0 ∧ (k • v) 9 ≠ 0)
    ∧ (Quadric.fromVector10d realLibm E (k • v)).pose.t
        = (Quadric.fromVector10d realLibm E v).pose.t
    ∧ (Quadric.fromVector10d realLibm E (k • v)).scale
        = (Quadric.fromVector10d realLibm E v).scale
    ∧ Quadric.rawQuadric realLibm (k • v) = realLibm.cbrt k • Quadric.rawQuadric realLibm v
    ∧ (k ≠ 1 → Quadric.rawQuadric realLibm (k • v) ≠ Quadric.rawQuadric realLibm v) := by
  have hk0 : k ≠ 0 := hk.ne'
  have hc : 0 < realLibm.cbrt k := realLibm_cbrt_pos k hk
  have hcb : realLibm.cbrt (k ^ 4 * (Quadric.assembleDualQuadric v).det)
      = k * realLibm.cbrt k * realLibm.cbrt (Quadric.assembleDualQuadric v).det := by
    have e : k ^ 4 = k ^ 3 * k := by ring
    rw [realLibm_cbrt_mul, e, realLibm_cbrt_mul, realLibm_cbrt_cube k hk]
  have hraw := Quadric.rawQuadric_smul_of realLibm v k (realLibm.cbrt k) hk0 hcb
  have hq33 : Quadric.quadric33 realLibm (k • v)
      = realLibm.cbrt k • Quadric.quadric33 realLibm v := by
    rw [Quadric.quadric33, hraw]
    rfl
  have hk9 : (k • v) 9 = k * v 9 := rfl
  refine ⟨⟨?_, ?_, ?_⟩, ?_, ?_, hraw, ?_⟩
  · rw [Quadric.assembleDualQuadric_smul, Matrix.det_smul]
    exact mul_ne_zero (pow_ne_zero _ hk0) hdet
  · rw [hq33, Matrix.det_smul]
    exact mul_ne_zero (pow_ne_zero _ hc.ne') h33
  · rw [hk9]
    exact mul_ne_zero hk0 hv9
  · rw [Quadric.fromVector10d_translation, Quadric.fromVector10d_translation]
    have e3 : (k • v) 3 = k * v 3 := rfl
    have e6 : (k • v) 6 = k * v 6 := rfl
    have e8 : (k • v) 8 = k * v 8 := rfl
    rw [e3, e6, e8, hk9, mul_div_mul_left _ _ hk0, mul_div_mul_left _ _ hk0,
      mul_div_mul_left _ _ hk0]
  · exact Quadric.fromVector10d_scale_of_raw_smul realLibm E v (k • v) _ hc hraw hE hE'
  · intro hk1 heq
    have h1 : Quadric.quadric33 realLibm (k • v) = Quadric.quadric33 realLibm v := by
      rw [Quadric.quadric33, heq]
      rfl
    have h2 := congrArg Matrix.det (hq33.symm.trans h1)
    rw [Matrix.det_smul, Fintype.card_fin] at h2
    have h3 : realLibm.cbrt k ^ 3 = 1 := by
      apply mul_right_cancel₀ h33
      rw [h2, one_mul]
    have h4 : realLibm.cbrt (k ^ 3) = 1 := by
      have e : k ^ 3 = k * k * k := by ring
      rw [e, realLibm_cbrt_mul, realLibm_cbrt_mul, ← h3]
      ring
    rw [realLibm_cbrt_cube k hk] at h4
    exact hk1 h4

/-- Witness for C18: the upper triangle of the dual quadric of the ellipsoid with semi-axes
(1, 2, 3) centred at (2, 0, 5), scaled by k = 8. -/
theorem Quadric.fromVector10d_scale_consistent_witness :
    (Quadric.assembleDualQuadric (upperTriangle (offAxisEllipsoid : Quadric ℝ).toSymMat)).det ≠ 0
    ∧ (Quadric.quadric33 realLibm (upperTriangle (offAxisEllipsoid : Quadric ℝ).toSymMat)).det ≠ 0
    ∧ upperTriangle (offAxisEllipsoid : Quadric ℝ).toSymMat 9 ≠ 0
    ∧ (0 : ℝ) < 8
    ∧ (diagonalEigen : EigenLib ℝ).SortedSpectrum
        (Quadric.quadric33 realLibm (upperTriangle (offAxisEllipsoid : Quadric ℝ).toSymMat))
    ∧ (diagonalEigen : EigenLib ℝ).SortedSpectrum
        (Quadric.quadric33 realLibm
          ((8 : ℝ) • upperTriangle (offAxisEllipsoid : Quadric ℝ).toSymMat))
    ∧ (Quadric.fromVector10d realLibm diagonalEigen
          ((8 : ℝ) • upperTriangle (offAxisEllipsoid : Quadric ℝ).toSymMat)).scale
        = (Quadric.fromVector10d realLibm diagonalEigen
            (upperTriangle (offAxisEllipsoid : Quadric ℝ).toSymMat)).scale
    ∧ Quadric.rawQuadric realLibm ((8 : ℝ) • upperTriangle (offAxisEllipsoid : Quadric ℝ).toSymMat)
        ≠ Quadric.rawQuadric realLibm (upperTriangle (offAxisEllipsoid : Quadric ℝ).toSymMat) :=
  have hsym : Quadric.assembleDualQuadric (upperTriangle (offAxisEllipsoid : Quadric ℝ).toSymMat)
      = (offAxisEllipsoid : Quadric ℝ).toSymMat :=
    Quadric.assemble_upperTriangle _
      (Matrix.ext fun i j => (offAxisEllipsoid : Quadric ℝ).toSymMat_symm_apply i j)
  have hdet : (Quadric.assembleDualQuadric
      (upperTriangle (offAxisEllipsoid : Quadric ℝ).toSymMat)).det ≠ 0 := by
    rw [hsym, offAxisEllipsoid_det]
    norm_num
  have hκ : realLibm.cbrt (-36) ≠ 0 := (realLibm_cbrt_neg _ (by norm_num)).ne
  have h33 : (Quadric.quadric33 realLibm
      (upperTriangle (offAxisEllipsoid : Quadric ℝ).toSymMat)).det ≠ 0 := by
    rw [offAxisEllipsoid_quadric33, offAxisEllipsoid_det, Matrix.det_diagonal,
      Fin.prod_univ_three]
    dsimp [offAxisEllipsoid, Matrix.vecHead, Matrix.vecTail]
    have : realLibm.cbrt (-36) * (1 ^ 2)⁻¹ * (realLibm.cbrt (-36) * (2 ^ 2)⁻¹)
        * (realLibm.cbrt (-36) * (3 ^ 2)⁻¹) = realLibm.cbrt (-36) ^ 3 / 36 := by ring
    rw [this]
    exact div_ne_zero (pow_ne_zero _ hκ) (by norm_num)
  have hv9 : upperTriangle (offAxisEllipsoid : Quadric ℝ).toSymMat 9 ≠ 0 := by
    have e : upperTriangle (offAxisEllipsoid : Quadric ℝ).toSymMat 9
        = (offAxisEllipsoid : Quadric ℝ).toSymMat 3 3 := rfl
    rw [e, (Quadric.toSymMat_last_column _).2.2.2]
    norm_num
  have hE : (diagonalEigen : EigenLib ℝ).SortedSpectrum
      (Quadric.quadric33 realLibm (upperTriangle (offAxisEllipsoid : Quadric ℝ).toSymMat)) := by
    have := offAxisEllipsoid_sortedSpectrum 1 one_pos
    rwa [one_smul] at this
  have hE' : (diagonalEigen : EigenLib ℝ).SortedSpectrum
      (Quadric.quadric33 realLibm
        ((8 : ℝ) • upperTriangle (offAxisEllipsoid : Quadric ℝ).toSymMat)) := by
    have hcb : realLibm.cbrt ((8 : ℝ) ^ 4 * (Quadric.assembleDualQuadric
        (upperTriangle (offAxisEllipsoid : Quadric ℝ).toSymMat)).det)
        = 8 * realLibm.cbrt 8 * realLibm.cbrt (Quadric.assembleDualQuadric
            (upperTriangle (offAxisEllipsoid : Quadric ℝ).toSymMat)).det := by
      have e : (8 : ℝ) ^ 4 = 8 ^ 3 * 8 := by norm_num
      rw [realLibm_cbrt_mul, e, realLibm_cbrt_mul, realLibm_cbrt_cube 8 (by norm_num)]
    have hraw := Quadric.rawQuadric_smul_of realLibm
      (upperTriangle (offAxisEllipsoid : Quadric ℝ).toSymMat) 8 (realLibm.cbrt 8)
      (by norm_num) hcb
    have hq : Quadric.quadric33 realLibm
        ((8 : ℝ) • upperTriangle (offAxisEllipsoid : Quadric ℝ).toSymMat)
        = realLibm.cbrt 8 • Quadric.quadric33 realLibm
            (upperTriangle (offAxisEllipsoid : Quadric ℝ).toSymMat) := by
      rw [Quadric.quadric33, hraw]
      rfl
    rw [hq]
    exact offAxisEllipsoid_sortedSpectrum _ (realLibm_cbrt_pos 8 (by norm_num))
  have h := Quadric.fromVector10d_scale_consistent diagonalEigen
    (upperTriangle (offAxisEllipsoid : Quadric ℝ).toSymMat) 8 hdet h33 hv9 (by norm_num) hE hE'
  ⟨hdet, h33, hv9, by norm_num, hE, hE', h.2.2.1, h.2.2.2.2 (by norm_num)⟩

/-- Witness for C8 (amended): the unit sphere five units in front of the identity camera, with
the identity calibration and the measurement (0, 0, 0, 0). -/
theorem EdgeSE3QuadricProj.computeError_spec_witness :
    (sphereAhead (1 : ℝ)).ProjectionDefined SE3Quat.identity (plainEdge : EdgeSE3QuadricProj ℝ).calib
    ∧ (plainEdge : EdgeSE3QuadricProj ℝ).computeError_checked realLibm ⟨SE3Quat.identity⟩
          ⟨sphereAhead 1⟩
        = some ((plainEdge : EdgeSE3QuadricProj ℝ).computeError realLibm ⟨SE3Quat.identity⟩
            ⟨sphereAhead 1⟩)
    ∧ ∀ i : Fin 4, 0 ≤ ((plainEdge : EdgeSE3QuadricProj ℝ).computeError realLibm
          ⟨SE3Quat.identity⟩ ⟨sphereAhead 1⟩)._error i :=
  have hdef : (sphereAhead (1 : ℝ)).ProjectionDefined SE3Quat.identity
      (plainEdge : EdgeSE3QuadricProj ℝ).calib := (sphereAhead_defined 1 (by norm_num) (by norm_num)).1
  have h := EdgeSE3QuadricProj.computeError_spec realLibm (plainEdge : EdgeSE3QuadricProj ℝ)
    ⟨SE3Quat.identity⟩ ⟨sphereAhead 1⟩ hdef
  ⟨hdef, h.2.1, fun i => (h.2.2 i).2.1⟩

/-- Counterexample to C8 as stated: a unit sphere at (1, 0, 1), the identity camera pose and
calibration, the measurement (0, 0, 0, 0).  P·Q·Pᵀ is invertible and the conic coefficients are
(A, B, C, D, E, F) = (0, 0, 1, −2, 0, 0), so the divisor 2·(B² − 4AC) is 0 and so are the
radicand and the numerators 4EA − 2BD ± sqrt(0) of the two y values: both are 0/0, and
computeError has no numeric residual, in particular no non-negative one. -/
theorem EdgeSE3QuadricProj.computeError_undefined_counterexample :
    ((touchingPrincipalPlane : Quadric ℝ).dualConic SE3Quat.identity 1).det ≠ 0
    ∧ Quadric.conicCoefficients ((touchingPrincipalPlane : Quadric ℝ).toConic SE3Quat.identity 1)
        = ![0, 0, 1, -2, 0, 0]
    ∧ conicDisc (![0, 0, 1, -2, 0, 0] : Vector6d ℝ) = 0
    ∧ radicandY (![0, 0, 1, -2, 0, 0] : Vector6d ℝ) = 0
    ∧ (plainEdge : EdgeSE3QuadricProj ℝ).computeError_checked realLibm ⟨SE3Quat.identity⟩
        ⟨touchingPrincipalPlane⟩ = none
    ∧ ¬ ∃ e : EdgeSE3QuadricProj ℝ,
        (plainEdge : EdgeSE3QuadricProj ℝ).computeError_checked realLibm ⟨SE3Quat.identity⟩
          ⟨touchingPrincipalPlane⟩ = some e
        ∧ ∀ i, 0 ≤ e._error i := by
  obtain ⟨hdet, hc⟩ := touchingPrincipalPlane_coefficients (K := ℝ)
  have hdet0 : ((touchingPrincipalPlane : Quadric ℝ).dualConic SE3Quat.identity 1).det ≠ 0 := by
    rw [hdet]; norm_num
  have hdisc : conicDisc (![0, 0, 1, -2, 0, 0] : Vector6d ℝ) = 0 := by
    rw [conicDisc]
    dsimp [Matrix.vecHead, Matrix.vecTail]
    norm_num
  have hrad : radicandY (![0, 0, 1, -2, 0, 0] : Vector6d ℝ) = 0 := by
    rw [radicandY]
    dsimp [Matrix.vecHead, Matrix.vecTail]
    norm_num
  have hnone : (plainEdge : EdgeSE3QuadricProj ℝ).computeError_checked realLibm
      ⟨SE3Quat.identity⟩ ⟨touchingPrincipalPlane⟩ = none := by
    have hd : ¬ ((touchingPrincipalPlane : Quadric ℝ).dualConic SE3Quat.identity
        (plainEdge : EdgeSE3QuadricProj ℝ).calib).det = 0 := hdet0
    have hc' : Quadric.conicCoefficients ((touchingPrincipalPlane : Quadric ℝ).toConic
        SE3Quat.identity (plainEdge : EdgeSE3QuadricProj ℝ).calib) = ![0, 0, 1, -2, 0, 0] := hc
    simp only [EdgeSE3QuadricProj.computeError_checked, Quadric.projectOntoImageBbox_checked,
      Quadric.projectOntoImageRect_checked, Quadric.toConic_checked, if_neg hd,
      Option.bind_eq_bind, Option.some_bind, hc',
      Quadric.tangentRect_checked_of_disc_zero realLibm _ hdisc, Option.none_bind]
  refine ⟨hdet0, hc, hdisc, hrad, hnone, ?_⟩
  · rintro ⟨e, he, _⟩
    rw [hnone] at he
    cases he

end RealTheorems

end g2o
